import Mathlib

/-!
Verification of the configuration-interpolation and template-rendering core
of the `stk` repository (src/stk/config.py, src/stk/template.py).

The development shallowly embeds the relevant Python code:

* `Config.Vars.expand` / `Config.Vars.__init__`  → `processKey`, `stepIter`,
  `expandAux`, `expand`, `VarsInit`
* `Config.InterpolatedDict.__init__`             → `interpolatedDict`
* `Config.StackRefs.{stacks,stack,output}`       → `buildStacks`, `refsStack`,
  `refsOutput`
* `FailedTemplate.{source_context,__str__}`      → `sourceContext`,
  `failedTemplateStr`
* `Template.render`                              → `templateRender`
* the lazy registry / describe-stack memoization → `RegistryState`, `runOps`

Python dicts are embedded as association lists over `String`, Python scalar
values as `PyVal`, Jinja2 string templates as lists of `Seg` (literal text
interleaved with `«{{ name }}»` variable references, rendered left to right
with strict undefined-variable failure), and `yaml.safe_load` of a rendered
scalar as `safeLoad`.
-/

/-- Scalar Python/YAML values flowing through the interpolation engine. -/
inductive PyVal where
  | none
  | bool (b : Bool)
  | int (n : Int)
  | str (s : String)
deriving DecidableEq, Repr

/-- Python `str()` of a scalar value, as used when a value is substituted
into a Jinja2 template or an f-string. -/
def pyStr : PyVal → String
  | PyVal.none => "None"
  | PyVal.bool true => "True"
  | PyVal.bool false => "False"
  | PyVal.int n => toString n
  | PyVal.str s => s

/-- Python truthiness of a scalar value (used by `if stack.optional:` and
`if not cfg:`). -/
def truthy : PyVal → Bool
  | PyVal.none => false
  | PyVal.bool b => b
  | PyVal.int n => n != 0
  | PyVal.str s => s != ""

/-- Numeric value of a list of decimal digit characters. -/
def digitsVal (l : List Char) : Nat :=
  l.foldl (fun acc c => acc * 10 + (c.toNat - 48)) 0

/-- Model of `yaml.safe_load` applied to a rendered scalar string: the YAML
null forms parse to `none`, the YAML boolean forms to booleans, unsigned
decimal numerals to integers, and everything else stays a string.  (The
repository feeds `safe_load` the text produced by rendering a value, to
recover typed values from strings; this models the scalar fragment the
claims exercise.) -/
def safeLoad (s : String) : PyVal :=
  if s = "" || s = "null" || s = "Null" || s = "NULL" || s = "~" then PyVal.none
  else if s = "true" || s = "True" || s = "TRUE" then PyVal.bool true
  else if s = "false" || s = "False" || s = "FALSE" then PyVal.bool false
  else if s.data ≠ [] && s.data.all Char.isDigit then PyVal.int (digitsVal s.data)
  else PyVal.str s

/-- One segment of a Jinja2 string template: literal text, or a
`«{{ name }}»` variable reference. -/
inductive Seg where
  | text (s : String)
  | ref (x : String)
deriving DecidableEq, Repr

/-- A raw (pre-interpolation) variable value, as seen by `Config.Vars.expand`:
either a value of a type not in `[bool, dict, list, str]` (stored untouched,
the `else` branch of `expand`), or a string treated as a Jinja2 template. -/
inductive Raw where
  | lit (v : PyVal)
  | tmpl (segs : List Seg)
deriving DecidableEq, Repr

/-- Variable names referenced by a template. -/
def segRefs : List Seg → List String
  | [] => []
  | Seg.text _ :: r => segRefs r
  | Seg.ref x :: r => x :: segRefs r

/-- Variable names a raw value depends on. -/
def rawDeps : Raw → List String
  | Raw.lit _ => []
  | Raw.tmpl segs => segRefs segs

/-- Association-list lookup keyed on the first component (Python `d[k]` /
`d.get(k)`). -/
def lookupKey {α : Type} : List (String × α) → String → Option α
  | [], _ => Option.none
  | p :: l, k => if p.1 = k then some p.2 else lookupKey l k

/-- Python `k in d` on an embedded dict. -/
def hasKey {α : Type} (l : List (String × α)) (k : String) : Bool :=
  (lookupKey l k).isSome

/-- Python `del d[k]` (removing every binding of `k`). -/
def eraseKey {α : Type} : List (String × α) → String → List (String × α)
  | [], _ => []
  | p :: l, k => if p.1 = k then eraseKey l k else p :: eraseKey l k

/-- Python `d[k] = v`. -/
def setKey {α : Type} (l : List (String × α)) (k : String) (v : α) : List (String × α) :=
  (k, v) :: eraseKey l k

/-- Jinja2 rendering of a string template against a context with
`StrictUndefined`: substitutes `pyStr` of each referenced variable, and fails
on the first reference to a name absent from the context (the error carries
that name). -/
def render (ctx : List (String × PyVal)) : List Seg → Except String String
  | [] => Except.ok ""
  | Seg.text s :: rest => (render ctx rest).map (fun t => s ++ t)
  | Seg.ref x :: rest =>
    match lookupKey ctx x with
    | some v => (render ctx rest).map (fun t => pyStr v ++ t)
    | Option.none => Except.error x

/-- String order used to model Python `sorted` (lexicographic, as `Ord String`). -/
def strLe (a b : String) : Bool := compare a b ≠ Ordering.gt

/-- Insert into a sorted list of strings. -/
def insertSorted (x : String) : List String → List String
  | [] => [x]
  | y :: ys => if strLe x y then x :: y :: ys else y :: insertSorted x ys

/-- Model of Python `sorted` on a list of strings. -/
def sortStrings (l : List String) : List String := l.foldr insertSorted []

/-- Model of Python `set(...)`: drop duplicate strings. -/
def dedupStr (l : List String) : List String :=
  l.foldr (fun x acc => if x ∈ acc then acc else x :: acc) []

/-- The error captured for a key during one failed expansion attempt. -/
inductive TErr where
  | keyError
  | undefinedVar (x : String)
deriving DecidableEq, Repr

/-- `Config.InterpolationError`: record of key, raw value and captured error. -/
structure InterpolationError where
  key : String
  value : Raw
  error : TErr
deriving DecidableEq, Repr

/-- The mutable state of `Config.Vars.expand`: `ctx` is `self` (the growing
resolved dict), `vars` the shrinking raw-variable dict, `errors` the
per-key error dict. -/
structure ExpandState where
  ctx : List (String × PyVal)
  vars : List (String × Raw)
  errors : List (String × InterpolationError)
deriving DecidableEq, Repr

/-- The body of the inner `for key in unexpanded_keys` loop of
`Config.Vars.expand`, for one key.  Mirrors the Python exactly: the `try`
block first runs `del errors[key]` (raising `KeyError` when the key has no
recorded error — which happens for every key on the first pass), then for a
templated value renders it against the current `self` and stores
`safe_load` of the result, and for a non-templated value stores it as is;
on any failure the key stays in `vars` and its `errors` entry is
overwritten with the captured error. -/
def processKey (st : ExpandState) (key : String) : ExpandState :=
  match lookupKey st.vars key with
  | Option.none => st
  | some value =>
    if hasKey st.errors key then
      let errs := eraseKey st.errors key
      match value with
      | Raw.lit v =>
        ⟨st.ctx ++ [(key, v)], eraseKey st.vars key, errs⟩
      | Raw.tmpl segs =>
        match render st.ctx segs with
        | Except.ok s => ⟨st.ctx ++ [(key, safeLoad s)], eraseKey st.vars key, errs⟩
        | Except.error x =>
          ⟨st.ctx, st.vars, setKey errs key ⟨key, value, TErr.undefinedVar x⟩⟩
    else
      ⟨st.ctx, st.vars, setKey st.errors key ⟨key, value, TErr.keyError⟩⟩

/-- `sorted(set(vars.keys()) - set(self.keys()))`. -/
def unexpandedKeys (st : ExpandState) : List String :=
  sortStrings (dedupStr ((st.vars.map Prod.fst).filter (fun k => !(hasKey st.ctx k))))

/-- One full pass of the `while` loop body of `Config.Vars.expand`
(processing every currently unexpanded key in sorted order). -/
def stepIter (st : ExpandState) : ExpandState :=
  (unexpandedKeys st).foldl processKey st

/-- `Config.Vars.MAX_INTERPOLATION_DEPTH`. -/
def MAX_INTERPOLATION_DEPTH : Nat := 10

/-- The `while interpolation_depth <= MAX_INTERPOLATION_DEPTH` loop of
`Config.Vars.expand`; the fuel counts the remaining loop entries (the loop
body is entered at most `MAX_INTERPOLATION_DEPTH + 1 = 11` times).  Returns
the final state paired with `none` when all keys expanded (the early
`return None`) or `some errors` when the loop exhausted its bound. -/
def expandAux : Nat → ExpandState → ExpandState × Option (List (String × InterpolationError))
  | 0, st => (st, some st.errors)
  | fuel + 1, st =>
    if unexpandedKeys st = [] then (st, Option.none)
    else expandAux fuel (stepIter st)

/-- Starting state of `Config.Vars.expand`: `self` empty, `errors` empty. -/
def initState (vars : List (String × Raw)) : ExpandState := ⟨[], vars, []⟩

/-- `Config.Vars.expand` run on an initial raw-variable dict. -/
def expand (vars : List (String × Raw)) :
    ExpandState × Option (List (String × InterpolationError)) :=
  expandAux (MAX_INTERPOLATION_DEPTH + 1) (initState vars)

/-- `Config.Vars.__init__`: runs `expand`; when `failed_keys` is truthy
(a non-empty error dict) it raises, otherwise the `Vars` dict holds the
resolved context. -/
def VarsInit (vars : List (String × Raw)) :
    Except (List (String × InterpolationError)) (List (String × PyVal)) :=
  match expand vars with
  | (st, some errs) => if errs.isEmpty then Except.ok st.ctx else Except.error errs
  | (st, Option.none) => Except.ok st.ctx

/-- Iterated full passes of the `while` loop body (without the termination
checks), used to state convergence bounds. -/
def iters : Nat → ExpandState → ExpandState
  | 0, st => st
  | n + 1, st => iters n (stepIter st)

/-! ### Association-list lemmas -/

@[simp] theorem lookupKey_nil {α : Type} (k : String) :
    lookupKey ([] : List (String × α)) k = Option.none := rfl

@[simp] theorem lookupKey_cons {α : Type} (p : String × α) (l : List (String × α)) (k : String) :
    lookupKey (p :: l) k = if p.1 = k then some p.2 else lookupKey l k := rfl

@[simp] theorem eraseKey_nil {α : Type} (k : String) :
    eraseKey ([] : List (String × α)) k = [] := rfl

@[simp] theorem eraseKey_cons {α : Type} (p : String × α) (l : List (String × α)) (k : String) :
    eraseKey (p :: l) k = if p.1 = k then eraseKey l k else p :: eraseKey l k := rfl

theorem lookupKey_eq_none {α : Type} {l : List (String × α)} {k : String} :
    lookupKey l k = Option.none ↔ hasKey l k = false := by
  unfold hasKey
  cases lookupKey l k <;> simp

theorem hasKey_nil {α : Type} (k : String) : hasKey ([] : List (String × α)) k = false := rfl

theorem hasKey_true_iff {α : Type} {l : List (String × α)} {k : String} :
    hasKey l k = true ↔ ∃ v, (k, v) ∈ l := by
  induction l with
  | nil => simp [hasKey]
  | cons p l ih =>
    unfold hasKey at ih ⊢
    by_cases h : p.1 = k
    · simp only [lookupKey_cons, if_pos h, Option.isSome_some, true_iff]
      exact ⟨p.2, by rw [← h]; simp⟩
    · simp only [lookupKey_cons, if_neg h, ih, List.mem_cons]
      constructor
      · rintro ⟨v, hv⟩
        exact ⟨v, Or.inr hv⟩
      · rintro ⟨v, rfl | hv⟩
        · exact absurd rfl h
        · exact ⟨v, hv⟩

theorem hasKey_iff_mem_map {α : Type} {l : List (String × α)} {k : String} :
    hasKey l k = true ↔ k ∈ l.map Prod.fst := by
  rw [hasKey_true_iff, List.mem_map]
  constructor
  · rintro ⟨v, hv⟩
    exact ⟨(k, v), hv, rfl⟩
  · rintro ⟨p, hp, he⟩
    exact ⟨p.2, by rwa [show (k, p.2) = p from Prod.ext he.symm rfl]⟩

theorem lookupKey_mem {α : Type} {l : List (String × α)} {k : String} {v : α}
    (h : lookupKey l k = some v) : (k, v) ∈ l := by
  induction l with
  | nil => simp at h
  | cons p l ih =>
    rw [lookupKey_cons] at h
    by_cases hp : p.1 = k
    · rw [if_pos hp] at h
      obtain rfl : p.2 = v := Option.some.inj h
      exact List.mem_cons.mpr (Or.inl (by rw [← hp]))
    · rw [if_neg hp] at h
      exact List.mem_cons.mpr (Or.inr (ih h))

theorem hasKey_of_mem {α : Type} {l : List (String × α)} {k : String} {v : α}
    (h : (k, v) ∈ l) : hasKey l k = true :=
  hasKey_true_iff.mpr ⟨v, h⟩

theorem lookupKey_of_mem_nodup {α : Type} {l : List (String × α)} {k : String} {v : α}
    (hnd : (l.map Prod.fst).Nodup) (h : (k, v) ∈ l) : lookupKey l k = some v := by
  induction l with
  | nil => cases h
  | cons p l ih =>
    rw [List.map_cons, List.nodup_cons] at hnd
    rcases List.mem_cons.mp h with h1 | h2
    · rw [← h1]
      simp
    · rw [lookupKey_cons]
      by_cases hp : p.1 = k
      · exact absurd (hp ▸ List.mem_map.mpr ⟨(k, v), h2, rfl⟩) hnd.1
      · rw [if_neg hp]
        exact ih hnd.2 h2

theorem mem_eraseKey {α : Type} {l : List (String × α)} {k : String} {p : String × α} :
    p ∈ eraseKey l k ↔ p ∈ l ∧ p.1 ≠ k := by
  induction l with
  | nil => simp
  | cons q l ih =>
    by_cases hq : q.1 = k
    · rw [eraseKey_cons, if_pos hq, ih]
      constructor
      · rintro ⟨h1, h2⟩
        exact ⟨List.mem_cons_of_mem _ h1, h2⟩
      · rintro ⟨h1, h2⟩
        rcases List.mem_cons.mp h1 with rfl | h3
        · exact absurd hq h2
        · exact ⟨h3, h2⟩
    · rw [eraseKey_cons, if_neg hq]
      simp only [List.mem_cons, ih]
      constructor
      · rintro (rfl | ⟨h1, h2⟩)
        · exact ⟨Or.inl rfl, hq⟩
        · exact ⟨Or.inr h1, h2⟩
      · rintro ⟨rfl | h1, h2⟩
        · exact Or.inl rfl
        · exact Or.inr ⟨h1, h2⟩

theorem lookupKey_eraseKey_ne {α : Type} {l : List (String × α)} {k j : String}
    (h : j ≠ k) : lookupKey (eraseKey l k) j = lookupKey l j := by
  induction l with
  | nil => rfl
  | cons p l ih =>
    by_cases hp : p.1 = k
    · rw [eraseKey_cons, if_pos hp, ih, lookupKey_cons,
        if_neg (fun e => h (e.symm.trans hp))]
    · rw [eraseKey_cons, if_neg hp, lookupKey_cons, lookupKey_cons]
      by_cases hj : p.1 = j
      · rw [if_pos hj, if_pos hj]
      · rw [if_neg hj, if_neg hj, ih]

theorem hasKey_eraseKey_self {α : Type} {l : List (String × α)} {k : String} :
    hasKey (eraseKey l k) k = false := by
  rw [← lookupKey_eq_none]
  induction l with
  | nil => rfl
  | cons p l ih =>
    by_cases hp : p.1 = k
    · rw [eraseKey_cons, if_pos hp]
      exact ih
    · rw [eraseKey_cons, if_neg hp, lookupKey_cons, if_neg hp]
      exact ih

theorem hasKey_eraseKey_ne {α : Type} {l : List (String × α)} {k j : String}
    (h : j ≠ k) : hasKey (eraseKey l k) j = hasKey l j := by
  unfold hasKey
  rw [lookupKey_eraseKey_ne h]

theorem eraseKey_sublist {α : Type} (l : List (String × α)) (k : String) :
    (eraseKey l k).Sublist l := by
  induction l with
  | nil => exact List.Sublist.refl _
  | cons p l ih =>
    by_cases hp : p.1 = k
    · rw [eraseKey_cons, if_pos hp]
      exact ih.cons _
    · rw [eraseKey_cons, if_neg hp]
      exact ih.cons₂ _

theorem nodup_map_eraseKey {α : Type} {l : List (String × α)} {k : String}
    (h : (l.map Prod.fst).Nodup) : ((eraseKey l k).map Prod.fst).Nodup :=
  ((eraseKey_sublist l k).map Prod.fst).nodup h

theorem hasKey_setKey_self {α : Type} {l : List (String × α)} {k : String} {v : α} :
    hasKey (setKey l k v) k = true := by
  unfold setKey hasKey
  simp

theorem hasKey_setKey_ne {α : Type} {l : List (String × α)} {k j : String} {v : α}
    (h : j ≠ k) : hasKey (setKey l k v) j = hasKey l j := by
  unfold setKey hasKey
  rw [lookupKey_cons, if_neg (fun e => h e.symm)]
  exact congrArg Option.isSome (lookupKey_eraseKey_ne h)

theorem mem_setKey {α : Type} {l : List (String × α)} {k : String} {v : α} {p : String × α}
    (h : p ∈ setKey l k v) : p = (k, v) ∨ p ∈ l := by
  rcases List.mem_cons.mp h with h1 | h2
  · exact Or.inl h1
  · exact Or.inr (mem_eraseKey.mp h2).1

theorem hasKey_append_single {α : Type} {l : List (String × α)} {k j : String} {v : α} :
    hasKey (l ++ [(k, v)]) j = (hasKey l j || decide (k = j)) := by
  induction l with
  | nil =>
    unfold hasKey
    by_cases h : k = j
    · simp [h]
    · simp [h]
  | cons p l ih =>
    unfold hasKey at ih ⊢
    rw [List.cons_append, lookupKey_cons, lookupKey_cons]
    by_cases hp : p.1 = j
    · simp [if_pos hp]
    · rw [if_neg hp, if_neg hp]
      exact ih

/-! ### Sorting / dedup lemmas -/

theorem mem_insertSorted {x y : String} {l : List String} :
    y ∈ insertSorted x l ↔ y = x ∨ y ∈ l := by
  induction l with
  | nil => simp [insertSorted]
  | cons a l ih =>
    unfold insertSorted
    by_cases h : strLe x a = true
    · simp [h, List.mem_cons]
    · simp only [h, Bool.false_eq_true, if_false, List.mem_cons, ih]
      tauto

theorem nodup_insertSorted {x : String} {l : List String}
    (hx : x ∉ l) (h : l.Nodup) : (insertSorted x l).Nodup := by
  induction l with
  | nil => simp [insertSorted]
  | cons a l ih =>
    rw [List.nodup_cons] at h
    unfold insertSorted
    by_cases hc : strLe x a = true
    · rw [if_pos hc, List.nodup_cons]
      exact ⟨hx, List.nodup_cons.mpr h⟩
    · rw [if_neg hc, List.nodup_cons]
      refine ⟨fun hm => ?_, ih (fun hm => hx (List.mem_cons_of_mem _ hm)) h.2⟩
      rcases mem_insertSorted.mp hm with rfl | hm2
      · exact hx (List.mem_cons_self _ _)
      · exact h.1 hm2

theorem mem_sortStrings {x : String} {l : List String} :
    x ∈ sortStrings l ↔ x ∈ l := by
  induction l with
  | nil => simp [sortStrings]
  | cons a l ih =>
    unfold sortStrings at ih ⊢
    rw [List.foldr_cons, mem_insertSorted, ih, List.mem_cons]

theorem nodup_sortStrings {l : List String} (h : l.Nodup) : (sortStrings l).Nodup := by
  induction l with
  | nil => simp [sortStrings]
  | cons a l ih =>
    rw [List.nodup_cons] at h
    unfold sortStrings at ih ⊢
    rw [List.foldr_cons]
    exact nodup_insertSorted (fun hm => h.1 (mem_sortStrings.mp hm)) (ih h.2)

theorem mem_dedupStr {x : String} {l : List String} :
    x ∈ dedupStr l ↔ x ∈ l := by
  induction l with
  | nil => simp [dedupStr]
  | cons a l ih =>
    unfold dedupStr at ih ⊢
    rw [List.foldr_cons]
    by_cases h : a ∈ l.foldr (fun x acc => if x ∈ acc then acc else x :: acc) []
    · rw [if_pos h, List.mem_cons, ih]
      constructor
      · exact Or.inr
      · rintro (rfl | hm)
        · exact ih.mp h
        · exact hm
    · rw [if_neg h, List.mem_cons, List.mem_cons, ih]

theorem nodup_dedupStr (l : List String) : (dedupStr l).Nodup := by
  induction l with
  | nil => simp [dedupStr]
  | cons a l ih =>
    unfold dedupStr at ih ⊢
    rw [List.foldr_cons]
    by_cases h : a ∈ l.foldr (fun x acc => if x ∈ acc then acc else x :: acc) []
    · rw [if_pos h]
      exact ih
    · rw [if_neg h, List.nodup_cons]
      exact ⟨h, ih⟩

theorem nodup_unexpandedKeys (st : ExpandState) : (unexpandedKeys st).Nodup :=
  nodup_sortStrings (nodup_dedupStr _)

theorem mem_unexpandedKeys {st : ExpandState} {k : String} :
    k ∈ unexpandedKeys st ↔ hasKey st.vars k = true ∧ hasKey st.ctx k = false := by
  unfold unexpandedKeys
  rw [mem_sortStrings, mem_dedupStr, List.mem_filter, ← hasKey_iff_mem_map]
  constructor
  · rintro ⟨h1, h2⟩
    exact ⟨h1, by simpa using h2⟩
  · rintro ⟨h1, h2⟩
    exact ⟨h1, by simpa using h2⟩

/-! ### Rendering lemmas -/

theorem render_ok_of_refs {ctx : List (String × PyVal)} {segs : List Seg}
    (h : ∀ x ∈ segRefs segs, hasKey ctx x = true) : ∃ s, render ctx segs = Except.ok s := by
  induction segs with
  | nil => exact ⟨"", rfl⟩
  | cons a rest ih =>
    cases a with
    | text s =>
      obtain ⟨t, ht⟩ := ih (fun x hx => h x hx)
      exact ⟨s ++ t, by rw [render, ht]; rfl⟩
    | ref x =>
      have hx : hasKey ctx x = true := h x (by simp [segRefs])
      obtain ⟨v, hv⟩ : ∃ v, lookupKey ctx x = some v := by
        unfold hasKey at hx
        cases hl : lookupKey ctx x with
        | none => rw [hl] at hx; simp at hx
        | some v => exact ⟨v, rfl⟩
      obtain ⟨t, ht⟩ := ih (fun y hy => h y (by simp [segRefs, hy]))
      exact ⟨pyStr v ++ t, by rw [render, hv, ht]; rfl⟩

theorem refs_of_render_ok {ctx : List (String × PyVal)} {segs : List Seg} {s : String}
    (h : render ctx segs = Except.ok s) : ∀ x ∈ segRefs segs, hasKey ctx x = true := by
  induction segs generalizing s with
  | nil => simp [segRefs]
  | cons a rest ih =>
    cases a with
    | text t =>
      intro x hx
      rw [render] at h
      cases hr : render ctx rest with
      | ok u => exact ih hr x hx
      | error e => rw [hr] at h; simp [Except.map] at h
    | ref y =>
      intro x hx
      rw [render] at h
      cases hl : lookupKey ctx y with
      | none => rw [hl] at h; simp at h
      | some v =>
        rw [hl] at h
        rcases List.mem_cons.mp (by simpa [segRefs] using hx) with rfl | hx2
        · unfold hasKey
          rw [hl]
          rfl
        · cases hr : render ctx rest with
          | ok u => exact ih hr x hx2
          | error e => rw [hr] at h; simp [Except.map] at h

/-! ### Behaviour of one `processKey` step -/

theorem processKey_master (st : ExpandState) (k : String) :
    (processKey st k = st ∧ lookupKey st.vars k = Option.none)
    ∨ ((processKey st k).ctx = st.ctx ∧ (processKey st k).vars = st.vars ∧
        hasKey (processKey st k).errors k = true ∧
        ∀ j, j ≠ k → hasKey (processKey st k).errors j = hasKey st.errors j)
    ∨ (∃ v, (processKey st k).ctx = st.ctx ++ [(k, v)] ∧
        (processKey st k).vars = eraseKey st.vars k ∧
        (processKey st k).errors = eraseKey st.errors k) := by
  unfold processKey
  cases hl : lookupKey st.vars k with
  | none => exact Or.inl ⟨rfl, rfl⟩
  | some value =>
    dsimp only
    by_cases he : hasKey st.errors k = true
    · rw [if_pos he]
      cases value with
      | lit v => exact Or.inr (Or.inr ⟨v, rfl, rfl, rfl⟩)
      | tmpl segs =>
        dsimp only
        cases hr : render st.ctx segs with
        | ok s => exact Or.inr (Or.inr ⟨safeLoad s, rfl, rfl, rfl⟩)
        | error x =>
          exact Or.inr (Or.inl ⟨rfl, rfl, hasKey_setKey_self,
            fun j hj => (hasKey_setKey_ne hj).trans (hasKey_eraseKey_ne hj)⟩)
    · rw [if_neg he]
      exact Or.inr (Or.inl ⟨rfl, rfl, hasKey_setKey_self, fun j hj => hasKey_setKey_ne hj⟩)

theorem processKey_resolves {st : ExpandState} {k : String} {r : Raw}
    (he : hasKey st.errors k = true) (hl : lookupKey st.vars k = some r)
    (hdeps : ∀ x ∈ rawDeps r, hasKey st.ctx x = true) :
    hasKey (processKey st k).ctx k = true := by
  unfold processKey
  rw [hl]
  dsimp only
  rw [if_pos he]
  cases r with
  | lit v =>
    dsimp only
    rw [hasKey_append_single]
    simp
  | tmpl segs =>
    dsimp only
    obtain ⟨s, hs⟩ := render_ok_of_refs hdeps
    rw [hs]
    rw [hasKey_append_single]
    simp

theorem processKey_blocked {st : ExpandState} {k : String} {r : Raw}
    (hl : lookupKey st.vars k = some r) {x : String}
    (hx : x ∈ rawDeps r) (hmiss : hasKey st.ctx x = false) :
    (processKey st k).ctx = st.ctx ∧ (processKey st k).vars = st.vars := by
  unfold processKey
  rw [hl]
  dsimp only
  by_cases he : hasKey st.errors k = true
  · rw [if_pos he]
    cases r with
    | lit v => cases hx
    | tmpl segs =>
      dsimp only
      cases hr : render st.ctx segs with
      | ok s =>
        exact absurd (refs_of_render_ok hr x hx) (by rw [hmiss]; simp)
      | error y => exact ⟨rfl, rfl⟩
  · rw [if_neg he]
    exact ⟨rfl, rfl⟩

theorem processKey_errvals {vars₀ : List (String × Raw)} {st : ExpandState} {k : String}
    (hsub : ∀ p ∈ st.vars, p ∈ vars₀)
    (hev : ∀ p ∈ st.errors, p.2.key = p.1 ∧ (p.1, p.2.value) ∈ vars₀) :
    ∀ p ∈ (processKey st k).errors, p.2.key = p.1 ∧ (p.1, p.2.value) ∈ vars₀ := by
  unfold processKey
  cases hl : lookupKey st.vars k with
  | none => exact hev
  | some value =>
    dsimp only
    have hval : (k, value) ∈ vars₀ := hsub _ (lookupKey_mem hl)
    by_cases he : hasKey st.errors k = true
    · rw [if_pos he]
      cases value with
      | lit v =>
        intro p hp
        exact hev p (mem_eraseKey.mp hp).1
      | tmpl segs =>
        dsimp only
        cases hr : render st.ctx segs with
        | ok s =>
          intro p hp
          exact hev p (mem_eraseKey.mp hp).1
        | error x =>
          intro p hp
          rcases mem_setKey hp with rfl | hp2
          · exact ⟨rfl, hval⟩
          · exact hev p (mem_eraseKey.mp hp2).1
    · rw [if_neg he]
      intro p hp
      rcases mem_setKey hp with rfl | hp2
      · exact ⟨rfl, hval⟩
      · exact hev p hp2

/-! ### Single-step corollaries -/

theorem processKey_ctx_mono {st : ExpandState} {k j : String}
    (h : hasKey st.ctx j = true) : hasKey (processKey st k).ctx j = true := by
  rcases processKey_master st k with ⟨he, _⟩ | ⟨hc, _, _, _⟩ | ⟨v, hc, _, _⟩
  · rw [he]; exact h
  · rw [hc]; exact h
  · rw [hc, hasKey_append_single, h]; simp

theorem processKey_vars_sub {st : ExpandState} {k : String} {p : String × Raw}
    (h : p ∈ (processKey st k).vars) : p ∈ st.vars := by
  rcases processKey_master st k with ⟨he, _⟩ | ⟨_, hv, _, _⟩ | ⟨v, _, hv, _⟩
  · rwa [he] at h
  · rwa [hv] at h
  · rw [hv] at h
    exact (mem_eraseKey.mp h).1

theorem processKey_lookup_vars_ne {st : ExpandState} {k j : String} (hj : j ≠ k) :
    lookupKey (processKey st k).vars j = lookupKey st.vars j := by
  rcases processKey_master st k with ⟨he, _⟩ | ⟨_, hv, _, _⟩ | ⟨v, _, hv, _⟩
  · rw [he]
  · rw [hv]
  · rw [hv, lookupKey_eraseKey_ne hj]

theorem processKey_hasKey_vars_ne {st : ExpandState} {k j : String} (hj : j ≠ k) :
    hasKey (processKey st k).vars j = hasKey st.vars j :=
  congrArg Option.isSome (processKey_lookup_vars_ne hj)

theorem processKey_errors_ne {st : ExpandState} {k j : String} (hj : j ≠ k) :
    hasKey (processKey st k).errors j = hasKey st.errors j := by
  rcases processKey_master st k with ⟨he, _⟩ | ⟨_, _, _, hf⟩ | ⟨v, _, _, herr⟩
  · rw [he]
  · exact hf j hj
  · rw [herr, hasKey_eraseKey_ne hj]

/-! ### The state invariant of `expand` -/

/-- Structural invariant of `Config.Vars.expand`: the remaining raw dict is a
sub-dict of the original with no duplicate keys, resolved keys have been
removed from it, and every original binding is either resolved or still
pending with its original raw value. -/
structure WFS (vars₀ : List (String × Raw)) (st : ExpandState) : Prop where
  sub : ∀ p ∈ st.vars, p ∈ vars₀
  nodup : (st.vars.map Prod.fst).Nodup
  disj : ∀ k, hasKey st.ctx k = true → hasKey st.vars k = false
  cover : ∀ p ∈ vars₀, hasKey st.ctx p.1 = true ∨ p ∈ st.vars

theorem initState_WF {vars₀ : List (String × Raw)}
    (hnd : (vars₀.map Prod.fst).Nodup) : WFS vars₀ (initState vars₀) := by
  refine ⟨fun p hp => hp, hnd, fun k hk => ?_, fun p hp => Or.inr hp⟩
  rw [show (initState vars₀).ctx = [] from rfl, hasKey_nil] at hk
  simp at hk

theorem processKey_WF {vars₀ : List (String × Raw)} {st : ExpandState} {k : String}
    (h : WFS vars₀ st) : WFS vars₀ (processKey st k) := by
  rcases processKey_master st k with ⟨he, _⟩ | ⟨hc, hv, _, _⟩ | ⟨v, hc, hv, _⟩
  · rwa [he]
  · refine ⟨?_, ?_, ?_, ?_⟩
    · rw [hv]; exact h.sub
    · rw [hv]; exact h.nodup
    · rw [hc, hv]; exact h.disj
    · rw [hc, hv]; exact h.cover
  · refine ⟨?_, ?_, ?_, ?_⟩
    · rw [hv]
      exact fun p hp => h.sub p (mem_eraseKey.mp hp).1
    · rw [hv]
      exact nodup_map_eraseKey h.nodup
    · intro j hj
      rw [hv]
      rw [hc, hasKey_append_single] at hj
      by_cases hjk : j = k
      · rw [hjk]
        exact hasKey_eraseKey_self
      · rw [hasKey_eraseKey_ne hjk]
        rcases Bool.or_eq_true_iff.mp hj with h1 | h2
        · exact h.disj j h1
        · exact absurd (of_decide_eq_true h2) (fun e => hjk e.symm)
    · intro p hp
      rcases h.cover p hp with h1 | h2
      · left
        rw [hc, hasKey_append_single, h1]
        simp
      · by_cases hpk : p.1 = k
        · left
          rw [hc, hasKey_append_single, hpk]
          simp
        · right
          rw [hv]
          exact mem_eraseKey.mpr ⟨h2, hpk⟩

/-! ### Fold-level lemmas -/

theorem foldl_ctx_mono {j : String} :
    ∀ (L : List String) (st : ExpandState), hasKey st.ctx j = true →
      hasKey (L.foldl processKey st).ctx j = true := by
  intro L
  induction L with
  | nil => exact fun st h => h
  | cons a L ih =>
    intro st h
    exact ih (processKey st a) (processKey_ctx_mono h)

theorem foldl_vars_sub {p : String × Raw} :
    ∀ (L : List String) (st : ExpandState), p ∈ (L.foldl processKey st).vars → p ∈ st.vars := by
  intro L
  induction L with
  | nil => exact fun st h => h
  | cons a L ih =>
    intro st h
    exact processKey_vars_sub (ih (processKey st a) h)

theorem foldl_WF {vars₀ : List (String × Raw)} :
    ∀ (L : List String) (st : ExpandState), WFS vars₀ st →
      WFS vars₀ (L.foldl processKey st) := by
  intro L
  induction L with
  | nil => exact fun st h => h
  | cons a L ih =>
    intro st h
    exact ih (processKey st a) (processKey_WF h)

theorem foldl_errvals {vars₀ : List (String × Raw)} :
    ∀ (L : List String) (st : ExpandState),
      (∀ p ∈ st.vars, p ∈ vars₀) →
      (∀ p ∈ st.errors, p.2.key = p.1 ∧ (p.1, p.2.value) ∈ vars₀) →
      ∀ p ∈ (L.foldl processKey st).errors, p.2.key = p.1 ∧ (p.1, p.2.value) ∈ vars₀ := by
  intro L
  induction L with
  | nil => exact fun st _ hev => hev
  | cons a L ih =>
    intro st hsub hev
    exact ih (processKey st a)
      (fun p hp => hsub p (processKey_vars_sub hp))
      (processKey_errvals hsub hev)

theorem foldl_resolves {k : String} {r : Raw} :
    ∀ (L : List String) (st : ExpandState), L.Nodup → k ∈ L →
      hasKey st.errors k = true → lookupKey st.vars k = some r →
      (∀ x ∈ rawDeps r, hasKey st.ctx x = true) →
      hasKey (L.foldl processKey st).ctx k = true := by
  intro L
  induction L with
  | nil => intro st _ hk; cases hk
  | cons a L ih =>
    intro st hL hk he hl hdeps
    rw [List.nodup_cons] at hL
    by_cases hak : a = k
    · subst hak
      exact foldl_ctx_mono L (processKey st a) (processKey_resolves he hl hdeps)
    · have hkL : k ∈ L := by
        rcases List.mem_cons.mp hk with h1 | h2
        · exact absurd h1.symm hak
        · exact h2
      refine ih (processKey st a) hL.2 hkL ?_ ?_ ?_
      · rw [processKey_errors_ne (fun e => hak e.symm)]
        exact he
      · rw [processKey_lookup_vars_ne (fun e => hak e.symm)]
        exact hl
      · exact fun x hx => processKey_ctx_mono (hdeps x hx)

theorem foldl_sync :
    ∀ (L : List String) (st : ExpandState), L.Nodup →
      (∀ j ∈ L, hasKey st.vars j = true) →
      (∀ j, j ∉ L → hasKey st.errors j = hasKey st.vars j) →
      ∀ j, hasKey (L.foldl processKey st).errors j = hasKey (L.foldl processKey st).vars j := by
  intro L
  induction L with
  | nil => exact fun st _ _ hB j => hB j (by simp)
  | cons a L ih =>
    intro st hL hA hB
    rw [List.nodup_cons] at hL
    refine ih (processKey st a) hL.2 ?_ ?_
    · intro j hj
      have hja : j ≠ a := fun e => hL.1 (e ▸ hj)
      rw [processKey_hasKey_vars_ne hja]
      exact hA j (List.mem_cons_of_mem _ hj)
    · intro j hj
      by_cases hja : j = a
      · subst hja
        have hv : hasKey st.vars j = true := hA j (List.mem_cons_self _ _)
        obtain ⟨value, hl⟩ : ∃ v, lookupKey st.vars j = some v := by
          unfold hasKey at hv
          cases hlk : lookupKey st.vars j with
          | none => rw [hlk] at hv; simp at hv
          | some v => exact ⟨v, rfl⟩
        rcases processKey_master st j with ⟨_, hnone⟩ | ⟨_, hvv, hek, _⟩ | ⟨v, _, hvv, herr⟩
        · rw [hnone] at hl; cases hl
        · rw [hvv, hek, hv]
        · rw [hvv, herr, hasKey_eraseKey_self, hasKey_eraseKey_self]
      · have hjaL : j ∉ a :: L := by
          intro hmem
          rcases List.mem_cons.mp hmem with h1 | h2
          · exact hja h1
          · exact hj h2
        rw [processKey_errors_ne hja, processKey_hasKey_vars_ne hja]
        exact hB j hjaL

/-! ### Iteration-level lemmas -/

theorem iters_succ_last : ∀ (n : Nat) (st : ExpandState),
    iters (n + 1) st = stepIter (iters n st) := by
  intro n
  induction n with
  | zero => exact fun st => rfl
  | succ n ih =>
    intro st
    show iters (n + 1) (stepIter st) = _
    rw [ih (stepIter st)]
    rfl

theorem stepIter_ctx_mono {st : ExpandState} {j : String}
    (h : hasKey st.ctx j = true) : hasKey (stepIter st).ctx j = true :=
  foldl_ctx_mono _ st h

theorem iters_WF {vars₀ : List (String × Raw)} {st : ExpandState}
    (h : WFS vars₀ st) : ∀ n, WFS vars₀ (iters n st) := by
  intro n
  induction n with
  | zero => exact h
  | succ n ih =>
    rw [iters_succ_last]
    exact foldl_WF _ _ ih

theorem iters_ctx_mono {st : ExpandState} {j : String} {n m : Nat} (hnm : n ≤ m)
    (h : hasKey (iters n st).ctx j = true) : hasKey (iters m st).ctx j = true := by
  induction m with
  | zero =>
    obtain rfl : n = 0 := Nat.le_zero.mp hnm
    exact h
  | succ m ih =>
    rcases Nat.lt_or_ge n (m + 1) with hlt | hge
    · rw [iters_succ_last]
      exact stepIter_ctx_mono (ih (Nat.lt_succ_iff.mp hlt))
    · obtain rfl : n = m + 1 := Nat.le_antisymm hnm hge
      exact h

theorem iters_errvals {vars₀ : List (String × Raw)}
    (hnd : (vars₀.map Prod.fst).Nodup) :
    ∀ n, ∀ p ∈ (iters n (initState vars₀)).errors,
      p.2.key = p.1 ∧ (p.1, p.2.value) ∈ vars₀ := by
  intro n
  induction n with
  | zero => intro p hp; cases hp
  | succ n ih =>
    rw [iters_succ_last]
    exact foldl_errvals _ _ ((iters_WF (initState_WF hnd) n).sub) ih

theorem sync_iters {vars₀ : List (String × Raw)} :
    ∀ n j, hasKey (iters (n + 1) (initState vars₀)).errors j =
      hasKey (iters (n + 1) (initState vars₀)).vars j := by
  intro n
  induction n with
  | zero =>
    intro j
    show hasKey (stepIter (initState vars₀)).errors j = _
    refine foldl_sync _ _ (nodup_unexpandedKeys _) ?_ ?_ j
    · exact fun i hi => (mem_unexpandedKeys.mp hi).1
    · intro i hi
      rw [show (initState vars₀).errors = [] from rfl, hasKey_nil]
      by_cases hv : hasKey (initState vars₀).vars i = true
      · exact absurd (mem_unexpandedKeys.mpr ⟨hv, by rw [show (initState vars₀).ctx = [] from rfl, hasKey_nil]⟩) hi
      · rw [Bool.not_eq_true] at hv
        rw [hv]
  | succ n ih =>
    intro j
    rw [iters_succ_last]
    refine foldl_sync _ _ (nodup_unexpandedKeys _) ?_ (fun i _ => ih i) j
    exact fun i hi => (mem_unexpandedKeys.mp hi).1

/-! ### Loop entry / exit lemmas for `expandAux` -/

theorem expandAux_success : ∀ (fuel : Nat) (st : ExpandState) (m : Nat), m < fuel →
    unexpandedKeys (iters m st) = [] → (expandAux fuel st).2 = Option.none := by
  intro fuel
  induction fuel with
  | zero => intro st m hm; cases hm
  | succ fuel ih =>
    intro st m hm hempty
    by_cases h0 : unexpandedKeys st = []
    · rw [expandAux, if_pos h0]
    · rw [expandAux, if_neg h0]
      cases m with
      | zero => exact absurd hempty h0
      | succ m' =>
        exact ih (stepIter st) m' (Nat.lt_of_succ_lt_succ hm) hempty

theorem expandAux_exhaust : ∀ (fuel : Nat) (st : ExpandState),
    (∀ m, m < fuel → unexpandedKeys (iters m st) ≠ []) →
    expandAux fuel st = (iters fuel st, some (iters fuel st).errors) := by
  intro fuel
  induction fuel with
  | zero => exact fun st _ => rfl
  | succ fuel ih =>
    intro st h
    have h0 : unexpandedKeys st ≠ [] := h 0 (Nat.succ_pos _)
    rw [expandAux, if_neg h0]
    exact ih (stepIter st) (fun m hm => h (m + 1) (Nat.succ_lt_succ hm))

/-! ### Convergence for acyclic variable sets -/

theorem resolved_by_depth {vars₀ : List (String × Raw)} {d : String → Nat}
    (hnd : (vars₀.map Prod.fst).Nodup)
    (hdep : ∀ p ∈ vars₀, ∀ x ∈ rawDeps p.2, hasKey vars₀ x = true ∧ d x < d p.1) :
    ∀ m, ∀ p ∈ vars₀, d p.1 < m →
      hasKey (iters (d p.1 + 2) (initState vars₀)).ctx p.1 = true := by
  intro m
  induction m with
  | zero => intro p _ h; cases h
  | succ m ih =>
    rintro ⟨k, r⟩ hp hdm
    dsimp only at hdm ⊢
    by_cases hlt : d k < m
    · exact ih (k, r) hp hlt
    · have hdm' : d k = m := Nat.le_antisymm (Nat.lt_succ_iff.mp hdm) (Nat.not_lt.mp hlt)
      have hwf : WFS vars₀ (iters (m + 1) (initState vars₀)) :=
        iters_WF (initState_WF hnd) (m + 1)
      have hdeps : ∀ x ∈ rawDeps r, hasKey (iters (m + 1) (initState vars₀)).ctx x = true := by
        intro x hx
        obtain ⟨hxk, hxd⟩ := hdep (k, r) hp x hx
        obtain ⟨v, hv⟩ := hasKey_true_iff.mp hxk
        have hxm : d x < m := by
          have : d x < d k := hxd
          omega
        have hxr : hasKey (iters (d x + 2) (initState vars₀)).ctx x = true := ih (x, v) hv hxm
        exact iters_ctx_mono (by omega) hxr
      by_cases hres : hasKey (iters (m + 1) (initState vars₀)).ctx k = true
      · exact iters_ctx_mono (by omega) hres
      · have hpv : (k, r) ∈ (iters (m + 1) (initState vars₀)).vars := by
          rcases hwf.cover (k, r) hp with h1 | h2
          · exact absurd h1 hres
          · exact h2
        have hl : lookupKey (iters (m + 1) (initState vars₀)).vars k = some r :=
          lookupKey_of_mem_nodup hwf.nodup hpv
        have he : hasKey (iters (m + 1) (initState vars₀)).errors k = true := by
          rw [sync_iters m k]
          exact hasKey_of_mem hpv
        have hkmem : k ∈ unexpandedKeys (iters (m + 1) (initState vars₀)) :=
          mem_unexpandedKeys.mpr ⟨hasKey_of_mem hpv, Bool.not_eq_true _ |>.mp hres⟩
        have hstep := foldl_resolves (unexpandedKeys (iters (m + 1) (initState vars₀)))
          (iters (m + 1) (initState vars₀)) (nodup_unexpandedKeys _) hkmem he hl hdeps
        have : hasKey (iters (m + 2) (initState vars₀)).ctx k = true := by
          rw [iters_succ_last]
          exact hstep
        rw [show d k + 2 = m + 2 by omega]
        exact this

theorem all_resolved {vars₀ : List (String × Raw)} {d : String → Nat} {N : Nat}
    (hnd : (vars₀.map Prod.fst).Nodup)
    (hdep : ∀ p ∈ vars₀, ∀ x ∈ rawDeps p.2, hasKey vars₀ x = true ∧ d x < d p.1)
    (hbound : ∀ p ∈ vars₀, d p.1 < N) :
    ∀ p ∈ vars₀, hasKey (iters (N + 1) (initState vars₀)).ctx p.1 = true := by
  intro p hp
  have h : hasKey (iters (d p.1 + 2) (initState vars₀)).ctx p.1 = true :=
    resolved_by_depth hnd hdep (d p.1 + 1) p hp (Nat.lt_succ_self _)
  have hb := hbound p hp
  exact iters_ctx_mono (by omega) h

theorem unexpanded_empty_of_all_resolved {vars₀ : List (String × Raw)} {st : ExpandState}
    (hwf : WFS vars₀ st)
    (hall : ∀ p ∈ vars₀, hasKey st.ctx p.1 = true) :
    unexpandedKeys st = [] := by
  rw [List.eq_nil_iff_forall_not_mem]
  intro k hk
  obtain ⟨hv, hc⟩ := mem_unexpandedKeys.mp hk
  obtain ⟨v, hmem⟩ := hasKey_true_iff.mp hv
  have := hall (k, v) (hwf.sub _ hmem)
  rw [this] at hc
  cases hc

/-! ### Non-resolution for cyclic variable sets -/

/-- Invariant maintained for a set `ks` of keys each of which depends on a
member of `ks`: none of them ever enters the resolved context, and their raw
values stay untouched in the pending dict. -/
def CycInv (vars₀ : List (String × Raw)) (ks : List String) (st : ExpandState) : Prop :=
  ∀ k ∈ ks, hasKey st.ctx k = false ∧ lookupKey st.vars k = lookupKey vars₀ k

theorem cyc_processKey {vars₀ : List (String × Raw)} {ks : List String}
    (hclo : ∀ k ∈ ks, ∃ r, lookupKey vars₀ k = some r ∧ ∃ x, x ∈ rawDeps r ∧ x ∈ ks)
    {st : ExpandState} (j : String) (hinv : CycInv vars₀ ks st) :
    CycInv vars₀ ks (processKey st j) := by
  by_cases hj : j ∈ ks
  · obtain ⟨r, hr, x, hx, hxks⟩ := hclo j hj
    have hlj : lookupKey st.vars j = some r := (hinv j hj).2.trans hr
    have hmiss : hasKey st.ctx x = false := (hinv x hxks).1
    obtain ⟨hc, hv⟩ := processKey_blocked hlj hx hmiss
    intro k hk
    rw [hc, hv]
    exact hinv k hk
  · intro k hk
    have hjk : k ≠ j := fun e => hj (e ▸ hk)
    refine ⟨?_, ?_⟩
    · rcases processKey_master st j with ⟨he, _⟩ | ⟨hc, _, _, _⟩ | ⟨v, hc, _, _⟩
      · rw [he]
        exact (hinv k hk).1
      · rw [hc]
        exact (hinv k hk).1
      · rw [hc, hasKey_append_single, (hinv k hk).1]
        simp
        exact fun e => hjk e.symm
    · rw [processKey_lookup_vars_ne hjk]
      exact (hinv k hk).2

theorem cyc_foldl {vars₀ : List (String × Raw)} {ks : List String}
    (hclo : ∀ k ∈ ks, ∃ r, lookupKey vars₀ k = some r ∧ ∃ x, x ∈ rawDeps r ∧ x ∈ ks) :
    ∀ (L : List String) (st : ExpandState), CycInv vars₀ ks st →
      CycInv vars₀ ks (L.foldl processKey st) := by
  intro L
  induction L with
  | nil => exact fun st h => h
  | cons a L ih =>
    intro st h
    exact ih (processKey st a) (cyc_processKey hclo a h)

theorem cyc_iters {vars₀ : List (String × Raw)} {ks : List String}
    (hclo : ∀ k ∈ ks, ∃ r, lookupKey vars₀ k = some r ∧ ∃ x, x ∈ rawDeps r ∧ x ∈ ks) :
    ∀ n, CycInv vars₀ ks (iters n (initState vars₀)) := by
  intro n
  induction n with
  | zero => exact fun k _ => ⟨rfl, rfl⟩
  | succ n ih =>
    rw [iters_succ_last]
    exact cyc_foldl hclo _ _ ih

/-! ### The concrete examples from the specification -/

/-- The acyclic example from the specification:
`a: "1"`, `b: "«{{a}}»2"`, `c: "«{{b}}»3"`. -/
def exampleVars : List (String × Raw) :=
  [("a", Raw.tmpl [Seg.text "1"]),
   ("b", Raw.tmpl [Seg.ref "a", Seg.text "2"]),
   ("c", Raw.tmpl [Seg.ref "b", Seg.text "3"])]

/-- The cyclic example from the specification: `a: "«{{b}}»"`, `b: "«{{a}}»"`. -/
def exampleCycle : List (String × Raw) :=
  [("a", Raw.tmpl [Seg.ref "b"]), ("b", Raw.tmpl [Seg.ref "a"])]

/-- A three-variable dependency chain whose alphabetical processing order is
the reverse of its dependency order: `x` needs `y`, `y` needs `z`. -/
def exampleChain : List (String × Raw) :=
  [("x", Raw.tmpl [Seg.ref "y", Seg.text "3"]),
   ("y", Raw.tmpl [Seg.ref "z", Seg.text "2"]),
   ("z", Raw.tmpl [Seg.text "1"])]

/-- Depth function witnessing that `exampleVars` is acyclic. -/
def exampleDepth (k : String) : Nat :=
  if k = "a" then 0 else if k = "b" then 1 else 2

/-- C1, counterexample.  The claim is false on the code in two ways.
First, the specification example does not resolve to the context
`a: 1, b: "12", c: "123"`: because every rendered value is re-parsed with
`safe_load`, the keys `b` and `c` resolve to the integers `12` and `123`,
not to strings.  Second, the claimed bound of N iterations for a longest
dependency chain of N variables is not reached: for the three-variable
chain `exampleChain`, whose sorted key order is the reverse of its
dependency order, the resolver is still not at a fixed point after three
full passes (the first pass is always consumed by the `del errors[key]`
`KeyError`). -/
theorem vars_expand_claim_counterexample :
    VarsInit exampleVars =
      Except.ok [("a", PyVal.int 1), ("b", PyVal.int 12), ("c", PyVal.int 123)] ∧
    lookupKey [("a", PyVal.int 1), ("b", PyVal.int 12), ("c", PyVal.int 123)] "b" =
      some (PyVal.int 12) ∧
    PyVal.int 12 ≠ PyVal.str "12" ∧
    unexpandedKeys (iters 3 (initState exampleChain)) ≠ [] := by
  refine ⟨rfl, rfl, by decide, by decide⟩

/-- C1 (amended): for every acyclic set of raw variables whose expressions
reference only names of the set (acyclicity witnessed by a depth function
`d` strictly decreasing along dependencies and bounded by `N ≤ 9`), the
Variable Resolver `Config.Vars.expand` reaches a fixed point in at most
`N + 1` full iterations — one more than the length `N` of the longest
dependency chain, because the first iteration is always consumed by the
`del errors[key]` `KeyError` — and `expand` returns success, so
`Config.Vars.__init__` does not raise.  In particular the specification
example `a: "1"`, `b: "«{{a}}»2"`, `c: "«{{b}}»3"` resolves to the context
`a: 1, b: 12, c: 123` (integers: each rendered value is re-parsed as YAML). -/
theorem vars_expand_acyclic_converges
    (vars : List (String × Raw)) (d : String → Nat) (N : Nat)
    (hnd : (vars.map Prod.fst).Nodup)
    (hdep : ∀ p ∈ vars, ∀ x ∈ rawDeps p.2, hasKey vars x = true ∧ d x < d p.1)
    (hbound : ∀ p ∈ vars, d p.1 < N)
    (hN : N ≤ 9) :
    unexpandedKeys (iters (N + 1) (initState vars)) = [] ∧
    (expand vars).2 = Option.none ∧
    (∃ ctx, VarsInit vars = Except.ok ctx) ∧
    VarsInit exampleVars =
      Except.ok [("a", PyVal.int 1), ("b", PyVal.int 12), ("c", PyVal.int 123)] := by
  have hempty : unexpandedKeys (iters (N + 1) (initState vars)) = [] :=
    unexpanded_empty_of_all_resolved (iters_WF (initState_WF hnd) (N + 1))
      (all_resolved hnd hdep hbound)
  have hsucc : (expand vars).2 = Option.none := by
    unfold expand
    exact expandAux_success (MAX_INTERPOLATION_DEPTH + 1) (initState vars) (N + 1)
      (by unfold MAX_INTERPOLATION_DEPTH; omega) hempty
  refine ⟨hempty, hsucc, ⟨(expand vars).1.ctx, ?_⟩, rfl⟩
  unfold VarsInit
  rcases hex : expand vars with ⟨st, o⟩
  rw [hex] at hsucc
  obtain rfl : o = Option.none := hsucc
  rfl

/-- Witness instantiating `vars_expand_acyclic_converges` on the
specification example with depth map a↦0, b↦1, c↦2 and chain length 3. -/
theorem vars_expand_acyclic_converges_witness :
    unexpandedKeys (iters (3 + 1) (initState exampleVars)) = [] ∧
    (expand exampleVars).2 = Option.none ∧
    (∃ ctx, VarsInit exampleVars = Except.ok ctx) ∧
    VarsInit exampleVars =
      Except.ok [("a", PyVal.int 1), ("b", PyVal.int 12), ("c", PyVal.int 123)] :=
  vars_expand_acyclic_converges exampleVars exampleDepth 3
    (by decide) (by decide) (by decide) (by decide)

/-- C2: for every cyclic set of raw variables (a nonempty list of keys each
of whose raw value references the next one cyclically), resolution exhausts
the iteration bound of `Config.Vars.expand`, `Config.Vars.__init__` raises,
and the reported error table contains exactly the keys that never resolved,
each with its original raw value — in particular every key of the cycle. -/
theorem vars_cyclic_resolution_fails
    (vars : List (String × Raw)) (ks : List String)
    (hnd : (vars.map Prod.fst).Nodup)
    (hne : ks ≠ [])
    (hcyc : ∀ i : Fin ks.length, ∃ r, (ks.get i, r) ∈ vars ∧
      ks.get ⟨(i.1 + 1) % ks.length, Nat.mod_lt _ (List.length_pos.mpr hne)⟩ ∈ rawDeps r) :
    ∃ st errs, expand vars = (st, some errs) ∧
      VarsInit vars = Except.error errs ∧
      errs ≠ [] ∧
      (∀ k, hasKey errs k = true ↔ (hasKey vars k = true ∧ hasKey st.ctx k = false)) ∧
      (∀ p ∈ errs, p.2.key = p.1 ∧ (p.1, p.2.value) ∈ vars) ∧
      (∀ k ∈ ks, hasKey errs k = true) := by
  have hclo : ∀ k ∈ ks, ∃ r, lookupKey vars k = some r ∧ ∃ x, x ∈ rawDeps r ∧ x ∈ ks := by
    intro k hk
    obtain ⟨i, hi⟩ := List.get_of_mem hk
    obtain ⟨r, hrv, hdv⟩ := hcyc i
    rw [hi] at hrv
    exact ⟨r, lookupKey_of_mem_nodup hnd hrv, _, hdv, List.get_mem _ _ _⟩
  have hinv := cyc_iters hclo
  obtain ⟨k₀, hk₀⟩ := List.exists_mem_of_ne_nil ks hne
  have hnonempty : ∀ m, m < MAX_INTERPOLATION_DEPTH + 1 →
      unexpandedKeys (iters m (initState vars)) ≠ [] := by
    intro m _ hemp
    obtain ⟨r, hr, _⟩ := hclo k₀ hk₀
    have h1 : hasKey (iters m (initState vars)).ctx k₀ = false := (hinv m k₀ hk₀).1
    have h2 : lookupKey (iters m (initState vars)).vars k₀ = some r :=
      ((hinv m k₀ hk₀).2).trans hr
    have hmem : k₀ ∈ unexpandedKeys (iters m (initState vars)) :=
      mem_unexpandedKeys.mpr ⟨by unfold hasKey; rw [h2]; rfl, h1⟩
    rw [hemp] at hmem
    cases hmem
  have hex : expand vars = (iters (MAX_INTERPOLATION_DEPTH + 1) (initState vars),
      some (iters (MAX_INTERPOLATION_DEPTH + 1) (initState vars)).errors) :=
    expandAux_exhaust (MAX_INTERPOLATION_DEPTH + 1) (initState vars) hnonempty
  have hwf : WFS vars (iters (MAX_INTERPOLATION_DEPTH + 1) (initState vars)) :=
    iters_WF (initState_WF hnd) _
  have hsync : ∀ j, hasKey (iters (MAX_INTERPOLATION_DEPTH + 1) (initState vars)).errors j =
      hasKey (iters (MAX_INTERPOLATION_DEPTH + 1) (initState vars)).vars j :=
    fun j => sync_iters MAX_INTERPOLATION_DEPTH j
  refine ⟨_, _, hex, ?_, ?_, ?_, iters_errvals hnd _, ?_⟩
  · -- VarsInit raises
    unfold VarsInit
    rw [hex]
    have hkerr := (hsync k₀).trans (by
      obtain ⟨r, hr, _⟩ := hclo k₀ hk₀
      have h2 : lookupKey (iters (MAX_INTERPOLATION_DEPTH + 1) (initState vars)).vars k₀ = some r :=
        ((hinv _ k₀ hk₀).2).trans hr
      unfold hasKey
      rw [h2]
      rfl)
    cases herrs : (iters (MAX_INTERPOLATION_DEPTH + 1) (initState vars)).errors with
    | nil =>
      rw [herrs, hasKey_nil] at hkerr
      cases hkerr
    | cons p l => rfl
  · -- errs nonempty
    intro h
    have hkerr := (hsync k₀).trans (by
      obtain ⟨r, hr, _⟩ := hclo k₀ hk₀
      have h2 : lookupKey (iters (MAX_INTERPOLATION_DEPTH + 1) (initState vars)).vars k₀ = some r :=
        ((hinv _ k₀ hk₀).2).trans hr
      unfold hasKey
      rw [h2]
      rfl)
    rw [h, hasKey_nil] at hkerr
    cases hkerr
  · -- the reported keys are exactly the unresolved keys
    intro k
    rw [hsync k]
    constructor
    · intro h
      obtain ⟨v, hv⟩ := hasKey_true_iff.mp h
      refine ⟨hasKey_of_mem (hwf.sub _ hv), ?_⟩
      by_contra hc
      rw [Bool.not_eq_false] at hc
      rw [hwf.disj k hc] at h
      cases h
    · rintro ⟨h1, h2⟩
      obtain ⟨v, hv⟩ := hasKey_true_iff.mp h1
      rcases hwf.cover (k, v) hv with hcx | hvv
      · rw [hcx] at h2
        cases h2
      · exact hasKey_of_mem hvv
  · -- every cycle key is reported
    intro k hk
    rw [hsync k]
    obtain ⟨r, hr, _⟩ := hclo k hk
    have h2 : lookupKey (iters (MAX_INTERPOLATION_DEPTH + 1) (initState vars)).vars k = some r :=
      ((hinv _ k hk).2).trans hr
    unfold hasKey
    rw [h2]
    rfl

/-- Witness instantiating `vars_cyclic_resolution_fails` on the cyclic
specification example `a: "«{{b}}»"`, `b: "«{{a}}»"`: both keys are reported. -/
theorem vars_cyclic_resolution_fails_witness :
    ∃ st errs, expand exampleCycle = (st, some errs) ∧
      VarsInit exampleCycle = Except.error errs ∧
      errs ≠ [] ∧
      (∀ k, hasKey errs k = true ↔ (hasKey exampleCycle k = true ∧ hasKey st.ctx k = false)) ∧
      (∀ p ∈ errs, p.2.key = p.1 ∧ (p.1, p.2.value) ∈ exampleCycle) ∧
      (∀ k ∈ ["a", "b"], hasKey errs k = true) :=
  vars_cyclic_resolution_fails exampleCycle ["a", "b"] (by decide) (by decide)
    (by
      intro i
      fin_cases i
      · exact ⟨Raw.tmpl [Seg.ref "b"], by decide, by decide⟩
      · exact ⟨Raw.tmpl [Seg.ref "a"], by decide, by decide⟩)

/-! ### FailedTemplate error localization (src/stk/template.py) -/

/-- Python `source.split("\n")` on the underlying character list (kept
explicit so that proofs can evaluate it). -/
def splitCharsOn (c : Char) : List Char → List (List Char)
  | [] => [[]]
  | a :: rest =>
    match splitCharsOn c rest with
    | [] => [[]]
    | h :: t => if a = c then [] :: h :: t else (a :: h) :: t

/-- `self.source.split("\n")` from `FailedTemplate.source_context`. -/
def splitLines (s : String) : List String :=
  (splitCharsOn '\n' s.data).map String.mk

/-- `FailedTemplate.ERROR_CONTEXT_LINES`. -/
def ERROR_CONTEXT_LINES : Nat := 3

/-- Python `"%4d" % i`: decimal digits right-justified to width 4. -/
def padNum (n : Nat) : String :=
  let s := toString n
  String.mk (List.replicate (4 - s.length) ' ') ++ s

/-- One formatted context line, `"%4d : %s" % (i, lines[i-1])`. -/
def fmtLine (i : Nat) (line : String) : String := padNum i ++ " : " ++ line

/-- `FailedTemplate.source_context`: shows the lines produced by
`range(max(1, line_no - 3), min(len(lines), line_no + 3) - 1)`, each line
`i` rendered as `"%4d : %s" % (i, lines[i-1])`, joined with newlines. -/
def sourceContext (source : String) (line_no : Nat) : String :=
  let lines := splitLines source
  let from_line := max 1 (line_no - ERROR_CONTEXT_LINES)
  let to_line := min lines.length (line_no + ERROR_CONTEXT_LINES) - 1
  String.intercalate "\n"
    ((List.range' from_line (to_line - from_line)).map
      (fun i => fmtLine i ((lines.get? (i - 1)).getD "")))

/-- `FailedTemplate.__str__` in the case where the traceback walk found a
frame whose filename is `<template>` at line `line_no` (the in-template
error case the claims are about): `error`, the location label, the line
number, and the source context window. -/
def failedTemplateStr (error location source : String) (line_no : Nat) : String :=
  error ++ "\n" ++ location ++ " at line " ++ toString line_no ++ ":\n\n" ++
    sourceContext source line_no ++ "\n\n"

/-- A concrete ten-line template source. -/
def tenLineSource : String := "L1\nL2\nL3\nL4\nL5\nL6\nL7\nL8\nL9\nL10"

/-- C3, counterexample: for a ten-line source with the error at line 6, the
diagnostic window contains lines 3 through 7, not lines 3 through 8 as
claimed — `range(from_line, to_line)` excludes `to_line`, which is itself
already `min(len, line_no + 3) - 1`. -/
theorem failed_template_window_counterexample :
    sourceContext tenLineSource 6 =
      "   3 : L3\n   4 : L4\n   5 : L5\n   6 : L6\n   7 : L7" ∧
    sourceContext tenLineSource 6 ≠
      "   3 : L3\n   4 : L4\n   5 : L5\n   6 : L6\n   7 : L7\n   8 : L8" := by
  exact ⟨rfl, by decide⟩

/-- C3 (amended): for every template source of exactly 10 lines with a
rendering error at line 6, `FailedTemplate.__str__` reports `at line 6` and
prints the source lines 3 through 7 — the window runs from
`max(1, line_no - 3)` to `min(len, line_no + 3) - 2` inclusive, so it is
clamped at the boundaries but its upper edge stops one line short of the
claimed `line_no + 2` — each line prefixed with its line number. -/
theorem failed_template_error_localization (source : String)
    (h : (splitLines source).length = 10) :
    sourceContext source 6 =
      String.intercalate "\n"
        ((List.range' 3 5).map
          (fun i => fmtLine i (((splitLines source).get? (i - 1)).getD ""))) ∧
    ∀ e loc, failedTemplateStr e loc source 6 =
      e ++ "\n" ++ loc ++ " at line " ++ toString (6 : Nat) ++ ":\n\n" ++
        sourceContext source 6 ++ "\n\n" := by
  constructor
  · simp only [sourceContext, ERROR_CONTEXT_LINES]
    rw [h]
    norm_num
  · intro e loc
    rfl

/-- Witness instantiating `failed_template_error_localization` on a concrete
ten-line source. -/
theorem failed_template_error_localization_witness :
    sourceContext tenLineSource 6 =
      String.intercalate "\n"
        ((List.range' 3 5).map
          (fun i => fmtLine i (((splitLines tenLineSource).get? (i - 1)).getD ""))) ∧
    ∀ e loc, failedTemplateStr e loc tenLineSource 6 =
      e ++ "\n" ++ loc ++ " at line " ++ toString (6 : Nat) ++ ":\n\n" ++
        sourceContext tenLineSource 6 ++ "\n\n" :=
  failed_template_error_localization tenLineSource rfl

/-! ### InterpolatedDict (src/stk/config.py, Config.InterpolatedDict) -/

/-- A value of the dict passed to `Config.InterpolatedDict.__init__`: either
Python `None`, or a value whose `str()` form is treated as a Jinja2 template
(every non-`None` value is rendered via `env.from_string(str(v))`). -/
inductive IVal where
  | none
  | tmpl (segs : List Seg)
deriving DecidableEq, Repr

/-- A Python object passed as the `object` argument of
`Config.InterpolatedDict.__init__` (also used for raw stack-reference
specs). -/
inductive PyObj where
  | none
  | bool (b : Bool)
  | int (n : Int)
  | str (s : String)
  | list (l : List PyObj)
  | dict (l : List (String × IVal))

/-- Python truthiness of a `PyObj` (`if not object:`). -/
def falsy : PyObj → Bool
  | PyObj.none => true
  | PyObj.bool b => !b
  | PyObj.int n => n == 0
  | PyObj.str s => s == ""
  | PyObj.list l => l.isEmpty
  | PyObj.dict l => l.isEmpty

/-- Failure of `Config.InterpolatedDict.__init__`: the non-mapping
`raise Exception(object)`, or the per-key
`raise Exception(f"Unable to process «{k}», ...")` wrapping an undefined
variable `x`. -/
inductive IDictErr where
  | notMapping
  | keyFailed (k : String) (x : String)
deriving DecidableEq, Repr

/-- The `for k, v in object.items()` loop of `Config.InterpolatedDict`:
a `None` value is stored as `None`; any other value is rendered against
`vars` and re-parsed with `safe_load`, the key being stored only when the
parsed value is not `None`; a rendering failure aborts the whole loop
naming the key. -/
def interpolatedGo (vars : List (String × PyVal)) :
    List (String × IVal) → List (String × PyVal) → Except IDictErr (List (String × PyVal))
  | [], acc => Except.ok acc
  | (k, IVal.none) :: rest, acc => interpolatedGo vars rest (acc ++ [(k, PyVal.none)])
  | (k, IVal.tmpl segs) :: rest, acc =>
    match render vars segs with
    | Except.ok s =>
      if safeLoad s = PyVal.none then interpolatedGo vars rest acc
      else interpolatedGo vars rest (acc ++ [(k, safeLoad s)])
    | Except.error x => Except.error (IDictErr.keyFailed k x)

/-- `Config.InterpolatedDict.__init__`: a falsy `object` yields the empty
dict, a truthy non-dict raises, and a dict is processed per key. -/
def interpolatedDict (object : PyObj) (vars : List (String × PyVal)) :
    Except IDictErr (List (String × PyVal)) :=
  if falsy object then Except.ok []
  else
    match object with
    | PyObj.dict l => interpolatedGo vars l []
    | _ => Except.error IDictErr.notMapping

theorem interpolatedGo_shift (vars : List (String × PyVal)) :
    ∀ (l : List (String × IVal)) (acc : List (String × PyVal)),
      interpolatedGo vars l acc = (interpolatedGo vars l []).map (fun t => acc ++ t) := by
  intro l
  induction l with
  | nil =>
    intro acc
    simp [interpolatedGo, Except.map]
  | cons e rest ih =>
    rcases e with ⟨k, v⟩
    intro acc
    cases v with
    | none =>
      rw [interpolatedGo, interpolatedGo, ih (acc ++ [(k, PyVal.none)]), ih ([] ++ [(k, PyVal.none)])]
      cases interpolatedGo vars rest [] with
      | ok t => simp [Except.map]
      | error e => simp [Except.map]
    | tmpl segs =>
      rw [interpolatedGo, interpolatedGo]
      cases hr : render vars segs with
      | ok s =>
        dsimp only
        by_cases hn : safeLoad s = PyVal.none
        · rw [if_pos hn, if_pos hn, ih acc]
        · rw [if_neg hn, if_neg hn, ih (acc ++ [(k, safeLoad s)]), ih ([] ++ [(k, safeLoad s)])]
          cases interpolatedGo vars rest [] with
          | ok t => simp [Except.map]
          | error e => simp [Except.map]
      | error x => rfl

theorem interpolatedGo_keys (vars : List (String × PyVal)) :
    ∀ (l : List (String × IVal)) (rd : List (String × PyVal)),
      interpolatedGo vars l [] = Except.ok rd → ∀ p ∈ rd, ∃ q ∈ l, q.1 = p.1 := by
  intro l
  induction l with
  | nil =>
    intro rd h p hp
    obtain rfl : ([] : List (String × PyVal)) = rd := Except.ok.inj h
    cases hp
  | cons e rest ih =>
    rcases e with ⟨k, v⟩
    intro rd h p hp
    cases v with
    | none =>
      rw [interpolatedGo, interpolatedGo_shift] at h
      cases hrec : interpolatedGo vars rest [] with
      | ok t =>
        rw [hrec] at h
        obtain rfl : [] ++ [(k, PyVal.none)] ++ t = rd := Except.ok.inj h
        rcases List.mem_append.mp hp with h1 | h2
        · obtain rfl : p = (k, PyVal.none) := by simpa using h1
          exact ⟨(k, IVal.none), List.mem_cons_self _ _, rfl⟩
        · obtain ⟨q, hq, he⟩ := ih t hrec p h2
          exact ⟨q, List.mem_cons_of_mem _ hq, he⟩
      | error e =>
        rw [hrec] at h
        cases h
    | tmpl segs =>
      rw [interpolatedGo] at h
      cases hr : render vars segs with
      | ok s =>
        rw [hr] at h
        dsimp only at h
        by_cases hn : safeLoad s = PyVal.none
        · rw [if_pos hn] at h
          obtain ⟨q, hq, he⟩ := ih rd h p hp
          exact ⟨q, List.mem_cons_of_mem _ hq, he⟩
        · rw [if_neg hn, interpolatedGo_shift] at h
          cases hrec : interpolatedGo vars rest [] with
          | ok t =>
            rw [hrec] at h
            obtain rfl : [] ++ [(k, safeLoad s)] ++ t = rd := Except.ok.inj h
            rcases List.mem_append.mp hp with h1 | h2
            · obtain rfl : p = (k, safeLoad s) := by simpa using h1
              exact ⟨(k, IVal.tmpl segs), List.mem_cons_self _ _, rfl⟩
            · obtain ⟨q, hq, he⟩ := ih t hrec p h2
              exact ⟨q, List.mem_cons_of_mem _ hq, he⟩
          | error e =>
            rw [hrec] at h
            cases h
      | error x =>
        rw [hr] at h
        cases h

theorem interpolatedGo_retains_none (vars : List (String × PyVal)) :
    ∀ (l : List (String × IVal)) (rd : List (String × PyVal)) (k : String),
      (k, IVal.none) ∈ l → interpolatedGo vars l [] = Except.ok rd →
      (k, PyVal.none) ∈ rd := by
  intro l
  induction l with
  | nil => intro rd k hk; cases hk
  | cons e rest ih =>
    rcases e with ⟨k', v⟩
    intro rd k hk h
    cases v with
    | none =>
      rw [interpolatedGo, interpolatedGo_shift] at h
      cases hrec : interpolatedGo vars rest [] with
      | ok t =>
        rw [hrec] at h
        obtain rfl : [] ++ [(k', PyVal.none)] ++ t = rd := Except.ok.inj h
        rcases List.mem_cons.mp hk with h1 | h2
        · obtain ⟨rfl, -⟩ : k = k' ∧ IVal.none = IVal.none := by
            exact ⟨congrArg Prod.fst h1, rfl⟩
          exact List.mem_append.mpr (Or.inl (by simp))
        · exact List.mem_append.mpr (Or.inr (ih t k h2 hrec))
      | error e =>
        rw [hrec] at h
        cases h
    | tmpl segs =>
      have hk2 : (k, IVal.none) ∈ rest := by
        rcases List.mem_cons.mp hk with h1 | h2
        · cases h1
        · exact h2
      rw [interpolatedGo] at h
      cases hr : render vars segs with
      | ok s =>
        rw [hr] at h
        dsimp only at h
        by_cases hn : safeLoad s = PyVal.none
        · rw [if_pos hn] at h
          exact ih rd k hk2 h
        · rw [if_neg hn, interpolatedGo_shift] at h
          cases hrec : interpolatedGo vars rest [] with
          | ok t =>
            rw [hrec] at h
            obtain rfl : [] ++ [(k', safeLoad s)] ++ t = rd := Except.ok.inj h
            exact List.mem_append.mpr (Or.inr (ih t k hk2 hrec))
          | error e =>
            rw [hrec] at h
            cases h
      | error x =>
        rw [hr] at h
        cases h

theorem interpolatedGo_omits_null (vars : List (String × PyVal)) :
    ∀ (l : List (String × IVal)) (rd : List (String × PyVal)),
      (l.map Prod.fst).Nodup →
      ∀ (k : String) (segs : List Seg) (s : String), (k, IVal.tmpl segs) ∈ l →
        render vars segs = Except.ok s → safeLoad s = PyVal.none →
        interpolatedGo vars l [] = Except.ok rd → hasKey rd k = false := by
  intro l
  induction l with
  | nil => intro rd _ k segs s hk; cases hk
  | cons e rest ih =>
    rcases e with ⟨k', v⟩
    intro rd hnd k segs s hk hr hn h
    rw [List.map_cons, List.nodup_cons] at hnd
    rcases List.mem_cons.mp hk with h1 | h2
    · -- the entry itself: its rendered value parses to null, so it is skipped
      obtain ⟨rfl, rfl⟩ : k' = k ∧ v = IVal.tmpl segs :=
        ⟨(congrArg Prod.fst h1).symm, (congrArg Prod.snd h1).symm⟩
      rw [interpolatedGo, hr] at h
      dsimp only at h
      rw [if_pos hn] at h
      cases hhk : hasKey rd k' with
      | false => rfl
      | true =>
        exfalso
        obtain ⟨w, hw⟩ := hasKey_true_iff.mp hhk
        obtain ⟨q, hq, he⟩ := interpolatedGo_keys vars rest rd h (k', w) hw
        exact hnd.1 (List.mem_map.mpr ⟨q, hq, he⟩)
    · -- the entry lives further down; the head contributes a different key
      have hkk' : k' ≠ k := by
        intro e
        exact hnd.1 (List.mem_map.mpr ⟨(k, IVal.tmpl segs), h2, e.symm⟩)
      cases v with
      | none =>
        rw [interpolatedGo, interpolatedGo_shift] at h
        cases hrec : interpolatedGo vars rest [] with
        | ok t =>
          rw [hrec] at h
          obtain rfl : [] ++ [(k', PyVal.none)] ++ t = rd := Except.ok.inj h
          show hasKey ((k', PyVal.none) :: t) k = false
          unfold hasKey
          rw [lookupKey_cons, if_neg hkk']
          exact ih t hnd.2 k segs s h2 hr hn hrec
        | error e =>
          rw [hrec] at h
          cases h
      | tmpl segs' =>
        rw [interpolatedGo] at h
        cases hr' : render vars segs' with
        | ok s' =>
          rw [hr'] at h
          dsimp only at h
          by_cases hn' : safeLoad s' = PyVal.none
          · rw [if_pos hn'] at h
            exact ih rd hnd.2 k segs s h2 hr hn h
          · rw [if_neg hn', interpolatedGo_shift] at h
            cases hrec : interpolatedGo vars rest [] with
            | ok t =>
              rw [hrec] at h
              obtain rfl : [] ++ [(k', safeLoad s')] ++ t = rd := Except.ok.inj h
              show hasKey ((k', safeLoad s') :: t) k = false
              unfold hasKey
              rw [lookupKey_cons, if_neg hkk']
              exact ih t hnd.2 k segs s h2 hr hn hrec
            | error e =>
              rw [hrec] at h
              cases h
        | error x =>
          rw [hr'] at h
          cases h

/-- C4, counterexample: a value that renders to the explicit YAML null text
`"null"` is not retained — `safe_load("null")` is `None`, so the key is
omitted from the result, exactly like a value that renders to nothing.  Only
an input value that is already `None` (never rendered at all) is retained
as null. -/
theorem interpolated_dict_rendered_null_counterexample :
    render [] [Seg.text "null"] = Except.ok "null" ∧
    safeLoad "null" = PyVal.none ∧
    interpolatedDict (PyObj.dict [("k", IVal.tmpl [Seg.text "null"])]) [] = Except.ok [] ∧
    ((("k", PyVal.none) ∈ ([] : List (String × PyVal))) → False) := by
  refine ⟨rfl, rfl, rfl, fun h => by cases h⟩

/-- C4 (amended): for every key of an `InterpolatedDict` input whose value
is the explicit null (`None` before any rendering), the result retains that
key mapped to null; for every key whose value renders and re-parses to
null — whether it rendered to nothing or to explicit null text — the key is
omitted from the result. -/
theorem interpolated_dict_null_handling (l : List (String × IVal))
    (vars : List (String × PyVal)) (rd : List (String × PyVal))
    (hnd : (l.map Prod.fst).Nodup)
    (hok : interpolatedDict (PyObj.dict l) vars = Except.ok rd) :
    (∀ k, (k, IVal.none) ∈ l → (k, PyVal.none) ∈ rd) ∧
    (∀ k segs s, (k, IVal.tmpl segs) ∈ l → render vars segs = Except.ok s →
      safeLoad s = PyVal.none → hasKey rd k = false) := by
  cases l with
  | nil =>
    refine ⟨fun k hk => ?_, fun k segs s hk => ?_⟩
    · cases hk
    · cases hk
  | cons e rest =>
    have hgo : interpolatedGo vars (e :: rest) [] = Except.ok rd := hok
    exact ⟨fun k hk => interpolatedGo_retains_none vars _ rd k hk hgo,
      fun k segs s hk hr hn => interpolatedGo_omits_null vars _ rd hnd k segs s hk hr hn hgo⟩

/-- Witness instantiating `interpolated_dict_null_handling` on the input
`a: None`, `b: "x"` (renders to `"x"`), `c: ""` (renders to nothing): `a` is
retained as null, `c` is omitted. -/
theorem interpolated_dict_null_handling_witness :
    (∀ k, (k, IVal.none) ∈
        [("a", IVal.none), ("b", IVal.tmpl [Seg.text "x"]), ("c", IVal.tmpl [Seg.text ""])] →
      (k, PyVal.none) ∈ [("a", PyVal.none), ("b", PyVal.str "x")]) ∧
    (∀ k segs s, (k, IVal.tmpl segs) ∈
        [("a", IVal.none), ("b", IVal.tmpl [Seg.text "x"]), ("c", IVal.tmpl [Seg.text ""])] →
      render [] segs = Except.ok s → safeLoad s = PyVal.none →
      hasKey [("a", PyVal.none), ("b", PyVal.str "x")] k = false) :=
  interpolated_dict_null_handling
    [("a", IVal.none), ("b", IVal.tmpl [Seg.text "x"]), ("c", IVal.tmpl [Seg.text ""])]
    [] [("a", PyVal.none), ("b", PyVal.str "x")] (by decide) rfl

/-- C9: every falsy input object to `InterpolatedDict` — `None`, an empty
dict, but also non-mapping falsy values such as an empty list, the empty
string, `0` or `False` — yields the empty dict without error, because the
`if not object: return` check precedes the type check; the non-mapping
error fires exactly for truthy non-dict inputs. -/
theorem interpolated_dict_falsy_inputs (obj : PyObj) (vars : List (String × PyVal)) :
    (falsy obj = true → interpolatedDict obj vars = Except.ok []) ∧
    (falsy obj = false → (∀ l, obj ≠ PyObj.dict l) →
      interpolatedDict obj vars = Except.error IDictErr.notMapping) ∧
    (interpolatedDict obj vars = Except.error IDictErr.notMapping → falsy obj = false) := by
  refine ⟨?_, ?_, ?_⟩
  · intro h
    unfold interpolatedDict
    rw [h]
    rfl
  · intro h hne
    unfold interpolatedDict
    rw [h]
    cases obj with
    | dict l => exact absurd rfl (hne l)
    | none => rfl
    | bool b => rfl
    | int n => rfl
    | str s => rfl
    | list l => rfl
  · intro h
    by_contra hc
    rw [Bool.not_eq_false] at hc
    unfold interpolatedDict at h
    rw [hc] at h
    cases h

/-- Witness instantiating `interpolated_dict_falsy_inputs`: the empty list
(falsy, not a mapping) yields the empty dict, while the truthy integer 1
triggers the non-mapping error. -/
theorem interpolated_dict_falsy_inputs_witness :
    interpolatedDict (PyObj.list []) [] = Except.ok [] ∧
    interpolatedDict (PyObj.int 1) [] = Except.error IDictErr.notMapping :=
  ⟨(interpolated_dict_falsy_inputs (PyObj.list []) []).1 rfl,
   (interpolated_dict_falsy_inputs (PyObj.int 1) []).2.1 rfl
     (fun _ h => PyObj.noConfusion h)⟩

/-! ### Template.render (src/stk/template.py) -/

/-- `FailedTemplate` as data: the original raw source (the `content or
raw_template` fallback always yields the raw source, since `content` is
still `None` whenever the Jinja2 evaluation raised), the location label
`str(self.provider)`, and the captured error. -/
structure FailedTemplateData where
  source : String
  location : String
  error : String
deriving DecidableEq, Repr

/-- Outcome of `Template.render`: a rendered template, a `FailedTemplate`
returned as data, or a raised `Template.TemplateRenderingException`
carrying the failed template. -/
inductive RenderOutcome where
  | rendered (content : String)
  | failed (t : FailedTemplateData)
  | raisedExc (t : FailedTemplateData)
deriving DecidableEq, Repr

/-- `Template.render`: the Jinja2 evaluation of the raw template against the
variable context is abstracted as `eval` (success text or error).  On
success the rendered template is returned; on failure a `FailedTemplate` is
built from the raw source, the provider location and the error, and it is
raised inside a `TemplateRenderingException` when `fail_on_error` is set,
returned as a value otherwise. -/
def templateRender (raw location : String) (eval : Except String String)
    (fail_on_error : Bool) : RenderOutcome :=
  match eval with
  | Except.ok content => RenderOutcome.rendered content
  | Except.error ex =>
    let t : FailedTemplateData := ⟨raw, location, ex⟩
    if fail_on_error then RenderOutcome.raisedExc t else RenderOutcome.failed t

/-- C7: with `fail_on_error` false (the default), `Template.render` never
raises on a render-time error: every evaluation error is returned as a
`FailedTemplate` value capturing source, location and error; with
`fail_on_error` true, the same error instead raises a
`TemplateRenderingException` carrying that same failed template. -/
theorem template_render_failure_policy (raw location ex : String)
    (eval : Except String String) (h : eval = Except.error ex) :
    templateRender raw location eval false = RenderOutcome.failed ⟨raw, location, ex⟩ ∧
    templateRender raw location eval true = RenderOutcome.raisedExc ⟨raw, location, ex⟩ ∧
    ∀ (ev : Except String String) (t : FailedTemplateData),
      templateRender raw location ev false ≠ RenderOutcome.raisedExc t := by
  refine ⟨by rw [h]; rfl, by rw [h]; rfl, ?_⟩
  intro ev t hc
  cases ev with
  | ok c => cases hc
  | error e => cases hc

/-- Witness instantiating `template_render_failure_policy` on a concrete
undefined-variable error. -/
theorem template_render_failure_policy_witness :
    templateRender "src" "loc" (Except.error "boom") false =
      RenderOutcome.failed ⟨"src", "loc", "boom"⟩ ∧
    templateRender "src" "loc" (Except.error "boom") true =
      RenderOutcome.raisedExc ⟨"src", "loc", "boom"⟩ ∧
    ∀ (ev : Except String String) (t : FailedTemplateData),
      templateRender "src" "loc" ev false ≠ RenderOutcome.raisedExc t :=
  template_render_failure_policy "src" "loc" "boom" (Except.error "boom") rfl

/-! ### StackRefs (src/stk/config.py, Config.StackRefs) -/

/-- `Config.StackRefs.OptionalStackReference` as the registry stores it:
the resolved target stack identifier (`opts.stack_name`) and the optional
flag (`opts.optional`), both values produced by the `InterpolatedDict`
pass. -/
structure StackHandle where
  name : PyVal
  optional : PyVal
deriving DecidableEq, Repr

/-- `Config.StackRefs.DEFAULTS`: `stack_name: "«{{ environment }}»-«{{ name }}»"`
and `optional: False` (the Python `False` is rendered via `str(False)` and
re-parsed, hence the `"False"` template). -/
def REF_DEFAULTS : List (String × IVal) :=
  [("stack_name", IVal.tmpl [Seg.ref "environment", Seg.text "-", Seg.ref "name"]),
   ("optional", IVal.tmpl [Seg.text "False"])]

/-- Python `{**a, **b}`: keys of `a` first (values overridden by `b` where
present), then the keys only in `b`. -/
def mergeDicts (a b : List (String × IVal)) : List (String × IVal) :=
  a.map (fun p => match lookupKey b p.1 with
    | some v => (p.1, v)
    | Option.none => p) ++ b.filter (fun p => !(hasKey a p.1))

/-- Failures of the stack-reference registry: the `exit(-1)` paths of
`StackRefs.stacks()` (non-mapping reference spec, or interpolation failure
of the reference options), the re-raised `StackRefOpts(**final_opts)`
failure, and the exceptions raised by `stack()` and `output()`. -/
inductive RefsErr where
  | exitMinusOne (name : String)
  | invalidOpts (name : String)
  | notDefined (msg : String)
  | doesNotExist (msg : String)
  | outputMissing (msg : String)
deriving DecidableEq, Repr

/-- Python `name.replace("_", "-")`. -/
def replaceUnderscores (s : String) : String :=
  String.mk (s.data.map (fun c => if c = '_' then '-' else c))

/-- The registry-building loop of `Config.StackRefs.stacks()`: the key
`"environment"` is skipped; a falsy spec is replaced by the empty dict; a
truthy non-dict spec exits; reference options are
`InterpolatedDict({**DEFAULTS, **cfg}, {environment, name})` with the
underscores of the reference name mapped to hyphens, and must yield exactly
the two `StackRefOpts` fields. -/
def buildStacksGo (env : String) :
    List (String × PyObj) → List (String × StackHandle) →
      Except RefsErr (List (String × StackHandle))
  | [], acc => Except.ok acc
  | (name, cfg) :: rest, acc =>
    if name = "environment" then buildStacksGo env rest acc
    else
      match (if falsy cfg then PyObj.dict [] else cfg) with
      | PyObj.dict l =>
        match interpolatedDict (PyObj.dict (mergeDicts REF_DEFAULTS l))
            [("environment", PyVal.str env), ("name", PyVal.str (replaceUnderscores name))] with
        | Except.error _ => Except.error (RefsErr.exitMinusOne name)
        | Except.ok fo =>
          match lookupKey fo "stack_name", lookupKey fo "optional" with
          | some sn, some op =>
            if fo.length = 2 then buildStacksGo env rest (acc ++ [(name, ⟨sn, op⟩)])
            else Except.error (RefsErr.invalidOpts name)
          | _, _ => Except.error (RefsErr.invalidOpts name)
      | _ => Except.error (RefsErr.exitMinusOne name)

/-- `Config.StackRefs.stacks()`, built from the declared reference specs. -/
def buildStacks (env : String) (refs : List (String × PyObj)) :
    Except RefsErr (List (String × StackHandle)) :=
  buildStacksGo env refs []

/-- The error message of `Config.StackRefs.stack()` for an undeclared
reference name: it enumerates `sorted(self.refs.keys())`. -/
def notDefinedMsg (refs : List (String × PyObj)) (name : String) : String :=
  "Attempt to access stack " ++ name ++
    ", but it\x27s not defined in config.refs - only " ++
    String.intercalate ", " (sortStrings (refs.map Prod.fst)) ++ " are defined"

/-- `Config.StackRefs.stack(name)`: materializes the registry, then returns
the named handle or raises naming the declared references. -/
def refsStack (env : String) (refs : List (String × PyObj)) (name : String) :
    Except RefsErr StackHandle :=
  match buildStacks env refs with
  | Except.error e => Except.error e
  | Except.ok sts =>
    match lookupKey sts name with
    | some h => Except.ok h
    | Option.none => Except.error (RefsErr.notDefined (notDefinedMsg refs name))

/-- Modelled from the spec: the deployment-state collaborator consumed by
stack references (`basic_stack.StackReference` is not part of the sources):
`stackExists identifier` answers the existence check and `outputs
identifier` the published outputs of a deployed stack. -/
structure World where
  stackExists : String → Bool
  outputs : String → List (String × String)

/-- `Config.StackRefs.output(name, output_name)`: looks the handle up (the
`stack()` failure propagates), then — existence check modelled from the
spec through the collaborator — returns `None` for a missing optional
stack, raises "does not exist, but is required" naming the resolved target
for a missing required stack, and otherwise looks the output up (the
output lookup itself is modelled from the spec: a missing output raises a
`KeyError` naming it). -/
def refsOutput (w : World) (env : String) (refs : List (String × PyObj))
    (name output_name : String) : Except RefsErr (Option String) :=
  match refsStack env refs name with
  | Except.error e => Except.error e
  | Except.ok h =>
    if w.stackExists (pyStr h.name) then
      match lookupKey (w.outputs (pyStr h.name)) output_name with
      | some v => Except.ok (some v)
      | Option.none => Except.error (RefsErr.outputMissing
          ("\x27" ++ output_name ++ " not in outputs of " ++ pyStr h.name ++ "\x27"))
    else
      if truthy h.optional then Except.ok Option.none
      else Except.error (RefsErr.doesNotExist
        ("Stack config.refs[" ++ name ++ "] (" ++ pyStr h.name ++
          ") does not exist, but is required"))

/-- C5: for every declared stack reference whose resolved target does not
exist in the deployed infrastructure, `StackRefs.output` returns `None` for
any output lookup when the reference is optional, and fails with a
"does not exist, but is required" error naming the resolved target stack
identifier when the reference is required. -/
theorem stack_refs_output_missing_stack (w : World) (env : String)
    (refs : List (String × PyObj)) (name output_name : String) (h : StackHandle)
    (hstack : refsStack env refs name = Except.ok h)
    (hmiss : w.stackExists (pyStr h.name) = false) :
    (truthy h.optional = true →
      refsOutput w env refs name output_name = Except.ok Option.none) ∧
    (truthy h.optional = false →
      refsOutput w env refs name output_name = Except.error (RefsErr.doesNotExist
        ("Stack config.refs[" ++ name ++ "] (" ++ pyStr h.name ++
          ") does not exist, but is required"))) := by
  unfold refsOutput
  rw [hstack]
  dsimp only
  rw [hmiss]
  constructor
  · intro hopt
    rw [hopt]
    rfl
  · intro hopt
    rw [hopt]
    rfl

/-- The declared references used by the reference-registry witnesses:
`foo` is optional (string flag `"true"`, coerced by the YAML re-parse),
`req` is a bare reference using all defaults (required). -/
def exampleRefs : List (String × PyObj) :=
  [("foo", PyObj.dict [("optional", IVal.tmpl [Seg.text "true"])]),
   ("req", PyObj.none)]

/-- A deployed world in which no stack exists. -/
def emptyWorld : World := ⟨fun _ => false, fun _ => []⟩

/-- Witness instantiating `stack_refs_output_missing_stack` on
`exampleRefs` against a world with no deployed stacks: the optional
reference `foo` yields `None`, the required reference `req` fails naming
its resolved target `dev-req`. -/
theorem stack_refs_output_missing_stack_witness :
    refsOutput emptyWorld "dev" exampleRefs "foo" "out" = Except.ok Option.none ∧
    refsOutput emptyWorld "dev" exampleRefs "req" "out" = Except.error
      (RefsErr.doesNotExist "Stack config.refs[req] (dev-req) does not exist, but is required") :=
  ⟨(stack_refs_output_missing_stack emptyWorld "dev" exampleRefs "foo" "out"
      ⟨PyVal.str "dev-foo", PyVal.bool true⟩ rfl rfl).1 rfl,
   (stack_refs_output_missing_stack emptyWorld "dev" exampleRefs "req" "out"
      ⟨PyVal.str "dev-req", PyVal.bool false⟩ rfl rfl).2 rfl⟩

/-- C6: accessing a stack reference name that is not among the materialized
handles fails with an error whose text enumerates exactly the declared
reference names, sorted. -/
theorem stack_refs_unknown_name (env : String) (refs : List (String × PyObj))
    (name : String) (sts : List (String × StackHandle))
    (hbuild : buildStacks env refs = Except.ok sts)
    (hmiss : hasKey sts name = false) :
    refsStack env refs name = Except.error (RefsErr.notDefined
      ("Attempt to access stack " ++ name ++
        ", but it\x27s not defined in config.refs - only " ++
        String.intercalate ", " (sortStrings (refs.map Prod.fst)) ++ " are defined")) := by
  unfold refsStack
  rw [hbuild]
  dsimp only
  rw [lookupKey_eq_none.mpr hmiss]
  rfl

/-- Witness instantiating `stack_refs_unknown_name`: requesting `foo` when
only `baz` and `bar` are declared (in that order) enumerates `bar, baz` in
sorted order. -/
theorem stack_refs_unknown_name_witness :
    refsStack "dev" [("baz", PyObj.none), ("bar", PyObj.none)] "foo" =
      Except.error (RefsErr.notDefined
        ("Attempt to access stack foo, but it\x27s not defined in config.refs - only bar, baz are defined")) :=
  stack_refs_unknown_name "dev" [("baz", PyObj.none), ("bar", PyObj.none)] "foo"
    [("baz", ⟨PyVal.str "dev-baz", PyVal.bool false⟩),
     ("bar", ⟨PyVal.str "dev-bar", PyVal.bool false⟩)] rfl rfl

theorem buildStacksGo_no_env (env : String) :
    ∀ (refs : List (String × PyObj)) (acc sts : List (String × StackHandle)),
      buildStacksGo env refs acc = Except.ok sts →
      (∀ p ∈ acc, p.1 ≠ "environment") →
      ∀ p ∈ sts, p.1 ≠ "environment" := by
  intro refs
  induction refs with
  | nil =>
    intro acc sts h hacc
    obtain rfl : acc = sts := Except.ok.inj h
    exact hacc
  | cons e rest ih =>
    rcases e with ⟨name, cfg⟩
    intro acc sts h hacc
    rw [buildStacksGo] at h
    by_cases hne : name = "environment"
    · rw [if_pos hne] at h
      exact ih acc sts h hacc
    · rw [if_neg hne] at h
      cases hcfg : (if falsy cfg then PyObj.dict [] else cfg) with
      | dict l =>
        rw [hcfg] at h
        dsimp only at h
        cases hint : interpolatedDict (PyObj.dict (mergeDicts REF_DEFAULTS l))
            [("environment", PyVal.str env), ("name", PyVal.str (replaceUnderscores name))] with
        | error e2 =>
          rw [hint] at h
          cases h
        | ok fo =>
          rw [hint] at h
          dsimp only at h
          cases hsn : lookupKey fo "stack_name" with
          | none =>
            rw [hsn] at h
            cases h
          | some sn =>
            rw [hsn] at h
            cases hop : lookupKey fo "optional" with
            | none =>
              rw [hop] at h
              cases h
            | some op =>
              rw [hop] at h
              dsimp only at h
              by_cases hlen : fo.length = 2
              · rw [if_pos hlen] at h
                refine ih _ sts h ?_
                intro p hp
                rcases List.mem_append.mp hp with h1 | h2
                · exact hacc p h1
                · obtain rfl : p = (name, ⟨sn, op⟩) := by simpa using h2
                  exact hne
              · rw [if_neg hlen] at h
                cases h
      | none => rw [hcfg] at h; cases h
      | bool b => rw [hcfg] at h; cases h
      | int n => rw [hcfg] at h; cases h
      | str s => rw [hcfg] at h; cases h
      | list l => rw [hcfg] at h; cases h

/-- C10: when the declared references contain a key literally named
`"environment"`, the registry never materializes a handle for it —
`stacks()` skips that key — so `stack("environment")` raises the
"not defined in config.refs" error, even though `"environment"` is listed
among the declared names that this very error message enumerates. -/
theorem stack_refs_environment_skipped (env : String) (refs : List (String × PyObj))
    (cfg : PyObj) (sts : List (String × StackHandle))
    (hmem : ("environment", cfg) ∈ refs)
    (hbuild : buildStacks env refs = Except.ok sts) :
    hasKey sts "environment" = false ∧
    refsStack env refs "environment" = Except.error (RefsErr.notDefined
      ("Attempt to access stack environment" ++
        ", but it\x27s not defined in config.refs - only " ++
        String.intercalate ", " (sortStrings (refs.map Prod.fst)) ++ " are defined")) ∧
    "environment" ∈ sortStrings (refs.map Prod.fst) := by
  have hskip : ∀ p ∈ sts, p.1 ≠ "environment" :=
    buildStacksGo_no_env env refs [] sts hbuild (fun p hp => by cases hp)
  have hmissing : hasKey sts "environment" = false := by
    cases hk : hasKey sts "environment" with
    | false => rfl
    | true =>
      exfalso
      obtain ⟨v, hv⟩ := hasKey_true_iff.mp hk
      exact hskip ("environment", v) hv rfl
  refine ⟨hmissing, ?_, ?_⟩
  · exact stack_refs_unknown_name env refs "environment" sts hbuild hmissing
  · exact mem_sortStrings.mpr (List.mem_map.mpr ⟨("environment", cfg), hmem, rfl⟩)

/-- Witness instantiating `stack_refs_environment_skipped` on references
declaring `environment` and `bar`: the registry holds only `bar`, yet the
error enumerates `bar, environment`. -/
theorem stack_refs_environment_skipped_witness :
    hasKey [("bar", (⟨PyVal.str "dev-bar", PyVal.bool false⟩ : StackHandle))] "environment" = false ∧
    refsStack "dev" [("environment", PyObj.str "dev"), ("bar", PyObj.none)] "environment" =
      Except.error (RefsErr.notDefined
        ("Attempt to access stack environment" ++
          ", but it\x27s not defined in config.refs - only " ++
          String.intercalate ", "
            (sortStrings ([("environment", PyObj.str "dev"), ("bar", PyObj.none)].map Prod.fst)) ++
          " are defined")) ∧
    "environment" ∈ sortStrings ([("environment", PyObj.str "dev"), ("bar", PyObj.none)].map Prod.fst) :=
  stack_refs_environment_skipped "dev" [("environment", PyObj.str "dev"), ("bar", PyObj.none)]
    (PyObj.str "dev") [("bar", ⟨PyVal.str "dev-bar", PyVal.bool false⟩)]
    (List.mem_cons_self _ _) rfl

/-! ### Lazy registry construction and per-handle memoization (C8) -/

/-- Modelled from the spec: the summary of one existence/description call to
the deployment-state collaborator. -/
structure DescribeResult where
  found : Bool
deriving DecidableEq, Repr

/-- A stack handle with its lazily-cached describe result
(`OptionalStackReference` with the `_describe_stack_result` attribute made
an explicit `Option`). -/
structure CachedHandle where
  target : String
  optional : Bool
  cache : Option DescribeResult
deriving DecidableEq, Repr

/-- The observable state of one `Config.StackRefs` registry: the lazily
built `_stacks` dict (`None` until the first access), the number of times
the registry-building loop ran, and the log of underlying collaborator
calls (one entry per `describe_stack` that actually reached the
collaborator), recorded by handle name. -/
structure RegistryState where
  registry : Option (List (String × CachedHandle))
  buildCount : Nat
  calls : List String
deriving DecidableEq, Repr

/-- The registry state right after `Config.StackRefs.__init__`: nothing is
built and no collaborator call has happened. -/
def initRegistry : RegistryState := ⟨Option.none, 0, []⟩

/-- `Config.StackRefs.stacks()`: returns the cached `_stacks` dict, building
it (from `builder`, the result of the construction loop) only on the first
access. -/
def getRegistry (builder : List (String × CachedHandle)) (st : RegistryState) :
    List (String × CachedHandle) × RegistryState :=
  match st.registry with
  | some r => (r, st)
  | Option.none => (builder, ⟨some builder, st.buildCount + 1, st.calls⟩)

/-- Replace the named handle inside the registry. -/
def updateHandle (r : List (String × CachedHandle)) (name : String) (h : CachedHandle) :
    List (String × CachedHandle) :=
  r.map (fun p => if p.1 = name then (name, h) else p)

/-- `OptionalStackReference.describe_stack` reached through the registry:
materializes the registry if needed, then — when the named handle exists
and its cache is empty — performs the one underlying collaborator call `w`,
stores the result in the handle cache, and logs the call.  A cached handle
answers without any collaborator call. -/
def describeStack (w : String → DescribeResult) (builder : List (String × CachedHandle))
    (st : RegistryState) (name : String) : RegistryState :=
  let rs := getRegistry builder st
  match lookupKey rs.1 name with
  | Option.none => rs.2
  | some h =>
    match h.cache with
    | some _ => rs.2
    | Option.none =>
      { rs.2 with
        registry := some (updateHandle rs.1 name { h with cache := some (w h.target) }),
        calls := rs.2.calls ++ [name] }

/-- One public operation on the reference registry. -/
inductive RefOp where
  | checkExists (name : String)
  | getOutput (name : String) (key : String)
deriving DecidableEq, Repr

/-- `exists()` consults the describe result once; `output()` consults it for
the existence check and again for the output lookup (the second consult is
served from the cache). -/
def applyOp (w : String → DescribeResult) (builder : List (String × CachedHandle))
    (st : RegistryState) : RefOp → RegistryState
  | RefOp.checkExists n => describeStack w builder st n
  | RefOp.getOutput n _ => describeStack w builder (describeStack w builder st n) n

/-- A sequence of registry operations within one registry lifetime. -/
def runOps (w : String → DescribeResult) (builder : List (String × CachedHandle))
    (ops : List RefOp) : RegistryState :=
  ops.foldl (fun st op => applyOp w builder st op) initRegistry

/-- The memoization invariant: the registry is built at most once (and a
still-unbuilt registry has seen no call), the built registry keeps the
builder key set, every handle whose cache is empty has never reached the
collaborator, no handle reaches it more than once, and calls are only made
for registered handles. -/
structure RegInv (builder : List (String × CachedHandle)) (st : RegistryState) : Prop where
  bc : st.buildCount ≤ 1
  unbuilt : st.registry = Option.none → st.buildCount = 0 ∧ st.calls = []
  keys : ∀ r, st.registry = some r → r.map Prod.fst = builder.map Prod.fst
  counts : ∀ r, st.registry = some r → ∀ p ∈ r,
    (p.2.cache = Option.none → st.calls.count p.1 = 0) ∧ st.calls.count p.1 ≤ 1
  callsIn : ∀ r, st.registry = some r → ∀ n ∈ st.calls, hasKey r n = true

theorem updateHandle_map_fst (r : List (String × CachedHandle)) (name : String)
    (h : CachedHandle) : (updateHandle r name h).map Prod.fst = r.map Prod.fst := by
  induction r with
  | nil => rfl
  | cons p rest ih =>
    rw [updateHandle, List.map_cons, List.map_cons, List.map_cons]
    by_cases hp : p.1 = name
    · rw [if_pos hp]
      exact congrArg₂ _ hp.symm (by rw [← updateHandle, ih])
    · rw [if_neg hp]
      exact congrArg _ (by rw [← updateHandle, ih])

theorem mem_updateHandle {r : List (String × CachedHandle)} {name : String}
    {h : CachedHandle} {p : String × CachedHandle} (hp : p ∈ updateHandle r name h) :
    p = (name, h) ∨ (p ∈ r ∧ p.1 ≠ name) := by
  induction r with
  | nil => cases hp
  | cons q rest ih =>
    rw [updateHandle, List.map_cons] at hp
    rcases List.mem_cons.mp hp with h1 | h2
    · by_cases hq : q.1 = name
      · rw [if_pos hq] at h1
        exact Or.inl h1
      · rw [if_neg hq] at h1
        subst h1
        exact Or.inr ⟨List.mem_cons_self _ _, hq⟩
    · rcases ih h2 with h3 | ⟨h3, h4⟩
      · exact Or.inl h3
      · exact Or.inr ⟨List.mem_cons_of_mem _ h3, h4⟩

theorem regInv_init (builder : List (String × CachedHandle)) :
    RegInv builder initRegistry := by
  refine ⟨Nat.zero_le 1, fun _ => ⟨rfl, rfl⟩, ?_, ?_, ?_⟩
  · intro r hr; cases hr
  · intro r hr; cases hr
  · intro r hr; cases hr

theorem describeStack_inv {builder : List (String × CachedHandle)}
    (w : String → DescribeResult) {st : RegistryState} (name : String)
    (hinv : RegInv builder st) : RegInv builder (describeStack w builder st name) := by
  -- the state right after `stacks()` has a built registry satisfying the invariant
  obtain ⟨r, st₁, hpair, hreg, hbc, hkeys, hcounts, hcalls⟩ :
      ∃ r st₁, getRegistry builder st = (r, st₁) ∧ st₁.registry = some r ∧
        st₁.buildCount ≤ 1 ∧ r.map Prod.fst = builder.map Prod.fst ∧
        (∀ p ∈ r, (p.2.cache = Option.none → st₁.calls.count p.1 = 0) ∧
          st₁.calls.count p.1 ≤ 1) ∧
        (∀ n ∈ st₁.calls, hasKey r n = true) := by
    cases hr : st.registry with
    | some r0 =>
      refine ⟨r0, st, by rw [getRegistry, hr], hr, hinv.bc, hinv.keys r0 hr,
        hinv.counts r0 hr, hinv.callsIn r0 hr⟩
    | none =>
      obtain ⟨hb0, hc0⟩ := hinv.unbuilt hr
      refine ⟨builder, ⟨some builder, st.buildCount + 1, st.calls⟩,
        by rw [getRegistry, hr], rfl, by dsimp only; omega, rfl, ?_, ?_⟩
      · intro p _
        rw [hc0]
        exact ⟨fun _ => rfl, by simp⟩
      · intro n hn
        rw [hc0] at hn
        cases hn
  rw [describeStack]
  rw [hpair]
  dsimp only
  cases hl : lookupKey r name with
  | none =>
    dsimp only
    refine ⟨hbc, fun h2 => absurd (h2 ▸ hreg) (by simp), ?_, ?_, ?_⟩
    · intro r2 h2
      rw [hreg] at h2
      obtain rfl := Option.some.inj h2
      exact hkeys
    · intro r2 h2
      rw [hreg] at h2
      obtain rfl := Option.some.inj h2
      exact hcounts
    · intro r2 h2
      rw [hreg] at h2
      obtain rfl := Option.some.inj h2
      exact hcalls
  | some h =>
    dsimp only
    cases hc : h.cache with
    | some dr =>
      dsimp only
      refine ⟨hbc, fun h2 => absurd (h2 ▸ hreg) (by simp), ?_, ?_, ?_⟩
      · intro r2 h2
        rw [hreg] at h2
        obtain rfl := Option.some.inj h2
        exact hkeys
      · intro r2 h2
        rw [hreg] at h2
        obtain rfl := Option.some.inj h2
        exact hcounts
      · intro r2 h2
        rw [hreg] at h2
        obtain rfl := Option.some.inj h2
        exact hcalls
    | none =>
      dsimp only
      have hmem : (name, h) ∈ r := lookupKey_mem hl
      have hzero : st₁.calls.count name = 0 := (hcounts (name, h) hmem).1 hc
      refine ⟨hbc, ?_, ?_, ?_, ?_⟩
      · intro h2
        cases h2
      · intro r2 h2
        obtain rfl := Option.some.inj h2
        rw [updateHandle_map_fst]
        exact hkeys
      · intro r2 h2 p hp
        obtain rfl := Option.some.inj h2
        rcases mem_updateHandle hp with rfl | ⟨hpr, hpn⟩
        · constructor
          · intro hcn
            cases hcn
          · show (st₁.calls ++ [name]).count name ≤ 1
            rw [List.count_append, hzero]
            simp
        · have hcnt := hcounts p hpr
          have hone : ([name].count p.1) = 0 := by
            rw [List.count_singleton]
            simp
            exact fun e => hpn e.symm
          constructor
          · intro hcn
            show (st₁.calls ++ [name]).count p.1 = 0
            rw [List.count_append, hcnt.1 hcn, hone]
          · show (st₁.calls ++ [name]).count p.1 ≤ 1
            rw [List.count_append, hone]
            omega
      · intro r2 h2 n hn
        obtain rfl := Option.some.inj h2
        rw [hasKey_iff_mem_map, updateHandle_map_fst, ← hasKey_iff_mem_map]
        rcases List.mem_append.mp hn with h3 | h3
        · exact hcalls n h3
        · obtain rfl : n = name := by simpa using h3
          exact hasKey_of_mem hmem

theorem applyOp_inv {builder : List (String × CachedHandle)}
    (w : String → DescribeResult) {st : RegistryState} (op : RefOp)
    (hinv : RegInv builder st) : RegInv builder (applyOp w builder st op) := by
  cases op with
  | checkExists n => exact describeStack_inv w n hinv
  | getOutput n k => exact describeStack_inv w n (describeStack_inv w n hinv)

/-- C8: across every sequence of `exists`/`output` operations within one
registry lifetime, the registry of handles is built at most once — and not
at construction: the freshly constructed state has no registry and no
calls — and the underlying existence/description call to the
deployment-state collaborator is invoked at most once per handle; the
result is memoized in the handle on first use. -/
theorem stack_refs_lazy_memoization (w : String → DescribeResult)
    (builder : List (String × CachedHandle)) (ops : List RefOp) :
    initRegistry.registry = Option.none ∧
    initRegistry.buildCount = 0 ∧
    (runOps w builder ops).buildCount ≤ 1 ∧
    (∀ n, (runOps w builder ops).calls.count n ≤ 1) := by
  have hfold : ∀ (l : List RefOp) (st : RegistryState), RegInv builder st →
      RegInv builder (l.foldl (fun st op => applyOp w builder st op) st) := by
    intro l
    induction l with
    | nil => exact fun st h => h
    | cons op rest ih =>
      intro st h
      exact ih (applyOp w builder st op) (applyOp_inv w op h)
  have hinv : RegInv builder (runOps w builder ops) :=
    hfold ops initRegistry (regInv_init builder)
  refine ⟨rfl, rfl, hinv.bc, ?_⟩
  intro n
  cases hr : (runOps w builder ops).registry with
  | none =>
    rw [(hinv.unbuilt hr).2]
    simp
  | some r =>
    by_cases hn : n ∈ (runOps w builder ops).calls
    · obtain ⟨v, hv⟩ := hasKey_true_iff.mp (hinv.callsIn r hr n hn)
      exact (hinv.counts r hr (n, v) hv).2
    · rw [List.count_eq_zero.mpr hn]
      exact Nat.zero_le 1
